import Mathlib

/-!
# Verification of the LangViz computational kernel

This development embeds the core algorithms of the LangViz Rust services
(`langviz-rs` and `phonetic-rs`) as executable Lean definitions and proves
properties of them.

Modelling conventions:

* Transcription strings are represented by their extended-grapheme-cluster
  segmentations, i.e. by `List String`; the Unicode segmenter itself is an
  external library (`unicode_segmentation`) and is not modelled.
* `f64` values arising in the algorithms are exact small rationals (weights,
  ratios) or exact small naturals plus `+∞` (the DTW cost table), so they are
  modelled by `ℚ` and by `Option ℕ` (`none` = `+∞`).  All arithmetic and
  comparisons performed by the code on these values are exact in IEEE double
  precision, including `INFINITY <= INFINITY = true` and
  `INFINITY < INFINITY = false`, which the `Option ℕ` operations below mirror.
* Rust `BinaryHeap` pops its elements in descending total order, so draining
  a heap of `k` maxima is modelled by sorting in descending order and taking
  the first `k` elements.
* Rust `std::collections::HashMap` iteration order is not specified and is
  randomized per process; functions of the source that expose that order are
  modelled as relations between inputs and the set of possible outputs (any
  permutation of a canonical enumeration).
-/

namespace LangViz

/-- The empty string (used as a default for in-range list indexing). -/
def emptyS : String := ""

/-- The gap marker pushed by the DTW backtrace for the side that does not
advance (`"-"` in the source). -/
def gapMark : String := "-"

/-! ## Levenshtein distance (`levenshtein` in phonetic.rs and phonetic-rs) -/

/-- Inner loop of the two-row Levenshtein DP: given the segment `x` of the
first string, the remaining segments of the second string, the value
`curr_row[j]` just computed and the sliding window of `prev_row` starting at
position `j`, produce the entries `curr_row[j+1], ...`.  Mirrors
`curr_row[j + 1] = min(min(curr_row[j] + 1, prev_row[j + 1] + 1), prev_row[j] + cost)`. -/
def levInner (x : String) : List String → ℕ → List ℕ → List ℕ
  | [], _, _ => []
  | _ :: _, _, [] => []
  | y :: ys, cLeft, pj :: pRest =>
    let cost := if x = y then 0 else 1
    let c := min (min (cLeft + 1) (pRest.headD 0 + 1)) (pj + cost)
    c :: levInner x ys c pRest

/-- Outer loop of the two-row Levenshtein DP over the segments of the first
string; `i` is the 0-based index of the current segment, and each iteration
sets `curr_row[0] = i + 1` before running the inner loop. -/
def levOuter (b : List String) : List String → ℕ → List ℕ → List ℕ
  | [], _, prev => prev
  | x :: xs, i, prev => levOuter b xs (i + 1) ((i + 1) :: levInner x b (i + 1) prev)

/-- Levenshtein distance over grapheme segments, as implemented with a rolling
two-row table in both `langviz-rs/src/phonetic.rs` and
`phonetic-rs/src/lib.rs` (the two sources are identical), including the early
returns for empty inputs. -/
def levenshtein (a b : List String) : ℕ :=
  if a.length = 0 then b.length
  else if b.length = 0 then a.length
  else (levOuter b a 0 (List.range (b.length + 1))).getLastD 0

/-- `phonetic_distance` of `langviz-rs/src/phonetic.rs`: normalized Levenshtein
similarity; both inputs empty gives `1.0`. -/
def phonetic_distance (a b : List String) : ℚ :=
  let d := levenshtein a b
  let maxLen := max a.length b.length
  if maxLen = 0 then 1 else 1 - (d : ℚ) / (maxLen : ℚ)

/-- `phonetic_distance` of `phonetic-rs/src/lib.rs`: identical to the
`langviz-rs` version except that it returns `0.0` when both inputs are empty. -/
def phoneticRS_distance (a b : List String) : ℚ :=
  let d := levenshtein a b
  let maxLen := max a.length b.length
  if maxLen = 0 then 0 else 1 - (d : ℚ) / (maxLen : ℚ)

/-- Mathematical edit-distance recursion (unit costs); reference specification
used to reason about the two-row DP. -/
def levRec : List String → List String → ℕ
  | [], m => m.length
  | _ :: l, [] => l.length + 1
  | x :: l, y :: m =>
    min (min (levRec (x :: l) m + 1) (levRec l (y :: m) + 1))
      (levRec l m + if x = y then 0 else 1)
termination_by l m => l.length + m.length

/-- The row of DP values described by the two-row Levenshtein algorithm:
`specRow u v ys` lists the edit distances between `u` and the successive
extensions of `v` by the segments of `ys` (both `u` and `v` being reversed
prefixes, so that the head-recursion of `levRec` matches the DP recurrence). -/
def specRow (u : List String) : List String → List String → List ℕ
  | v, [] => [levRec u v]
  | v, y :: ys => levRec u v :: specRow u (y :: v) ys

/-! ## Longest common subsequence (`lcs_length`, `lcs_ratio`) -/

/-- Inner loop of the LCS DP (row-by-row reading of the full table built in
`lcs_length`): mirrors `dp[i][j] = dp[i-1][j-1] + 1` on equal segments and
`max(dp[i-1][j], dp[i][j-1])` otherwise. -/
def lcsInner (x : String) : List String → ℕ → List ℕ → List ℕ
  | [], _, _ => []
  | _ :: _, _, [] => []
  | y :: ys, cLeft, pj :: pRest =>
    let c := if x = y then pj + 1 else max (pRest.headD 0) cLeft
    c :: lcsInner x ys c pRest

/-- Outer loop of the LCS DP over the segments of the first string; each row
starts with `dp[i][0] = 0`. -/
def lcsOuter (b : List String) : List String → List ℕ → List ℕ
  | [], prev => prev
  | x :: xs, prev => lcsOuter b xs (0 :: lcsInner x b 0 prev)

/-- `lcs_length` of `phonetic.rs` (and `phonetic-rs`): length of the longest
common subsequence via the standard DP table, read row by row. -/
def lcs_length (a b : List String) : ℕ :=
  (lcsOuter b a (List.replicate (b.length + 1) 0)).getLastD 0

/-- `lcs_ratio`: `lcs / max(|A|, |B|)`, with `1.0` when both inputs are
empty. -/
def lcs_ratio (a b : List String) : ℚ :=
  let l := lcs_length a b
  let maxLen := max a.length b.length
  if maxLen = 0 then 1 else (l : ℚ) / (maxLen : ℚ)

/-- Mathematical LCS recursion; reference specification for the DP. -/
def lcsRec : List String → List String → ℕ
  | [], _ => 0
  | _ :: _, [] => 0
  | x :: l, y :: m =>
    if x = y then lcsRec l m + 1 else max (lcsRec (x :: l) m) (lcsRec l (y :: m))
termination_by l m => l.length + m.length

/-- Row of LCS DP values, analogous to `specRow`. -/
def lcsSpecRow (u : List String) : List String → List String → List ℕ
  | v, [] => [lcsRec u v]
  | v, y :: ys => lcsRec u v :: lcsSpecRow u (y :: v) ys

/-! ## DTW alignment (`dtw_align` in phonetic.rs)

The DTW cost table holds `f64` values that are either small naturals or
`+∞` (the initial fill); they are modelled by `Option ℕ` with `none = +∞`.
The operations below mirror IEEE arithmetic and comparisons on these values
exactly. -/

/-- Addition on `ℕ ∪ {+∞}` (mirrors `f64` addition on these values). -/
def oAdd : Option ℕ → Option ℕ → Option ℕ
  | some x, some y => some (x + y)
  | _, _ => none

/-- Minimum on `ℕ ∪ {+∞}` (mirrors `f64::min` on these values). -/
def oMin : Option ℕ → Option ℕ → Option ℕ
  | some x, some y => some (min x y)
  | some x, none => some x
  | none, y => y

/-- `<=` on `ℕ ∪ {+∞}`; note `+∞ <= +∞` is true, as for `f64`. -/
def oLe : Option ℕ → Option ℕ → Bool
  | some x, some y => x ≤ y
  | some _, none => true
  | none, some _ => false
  | none, none => true

/-- `<` on `ℕ ∪ {+∞}`; note `+∞ < +∞` is false, as for `f64`. -/
def oLt : Option ℕ → Option ℕ → Bool
  | some x, some y => x < y
  | some _, none => true
  | _, none => false
  | none, some _ => false

/-- Fuel-indexed DTW cost table of `dtw_align`: `cost[0,0] = 0`, the rest of
the first row and column stay `+∞`, and for `1 ≤ i ≤ |a|`, `1 ≤ j ≤ |b|`,
`cost[i,j] = match_cost + min(min(cost[i-1,j], cost[i,j-1]), cost[i-1,j-1])`.
Cells outside the filled region keep their initial `+∞`.  The fuel only
bounds the recursion depth; `dtwCost` supplies `i + j`, which is always
sufficient (`dtwCost_eq`). -/
def dtwCostF (a b : List String) : ℕ → ℕ → ℕ → Option ℕ
  | _, 0, 0 => some 0
  | _, 0, _ + 1 => none
  | _, _ + 1, 0 => none
  | 0, _ + 1, _ + 1 => none
  | f + 1, i + 1, j + 1 =>
    if i < a.length ∧ j < b.length then
      oAdd (if a.getD i emptyS = b.getD j emptyS then some 0 else some 1)
        (oMin (oMin (dtwCostF a b f i (j + 1)) (dtwCostF a b f (i + 1) j))
          (dtwCostF a b f i j))
    else none

/-- The DTW cost table entry at `(i, j)`. -/
def dtwCost (a b : List String) (i j : ℕ) : Option ℕ :=
  dtwCostF a b (i + j) i j

/-- Edit operations of an alignment (`EditOp` in types.rs). -/
inductive EditOp where
  | Match
  | Substitute
  | Insert
  | Delete
deriving DecidableEq, Repr

/-- Result of a phonetic alignment (`Alignment` in types.rs); the cost is an
element of `ℕ ∪ {+∞}` (it is in fact always finite). -/
structure Alignment where
  sequence_a : List String
  sequence_b : List String
  operations : List EditOp
  cost : Option ℕ
deriving DecidableEq, Repr

/-- Fuel-indexed backtrace of `dtw_align`, producing the operation list and
the two gap-padded sequences in push order (the source pushes onto vectors
while walking from `(|a|, |b|)` to `(0, 0)` and reverses at the end).  The
fuel only bounds the recursion depth; `i + j` is always sufficient. -/
def backtraceRevF (a b : List String) : ℕ → ℕ → ℕ → List EditOp × List String × List String
  | 0, _, _ => ([], [], [])
  | _ + 1, 0, 0 => ([], [], [])
  | f + 1, 0, j + 1 =>
    let r := backtraceRevF a b f 0 j
    (EditOp.Insert :: r.1, gapMark :: r.2.1, b.getD j emptyS :: r.2.2)
  | f + 1, i + 1, 0 =>
    let r := backtraceRevF a b f i 0
    (EditOp.Delete :: r.1, a.getD i emptyS :: r.2.1, gapMark :: r.2.2)
  | f + 1, i + 1, j + 1 =>
    let diag := dtwCost a b i j
    let up := dtwCost a b i (j + 1)
    let left := dtwCost a b (i + 1) j
    if oLe diag up ∧ oLe diag left then
      let op := if a.getD i emptyS = b.getD j emptyS then EditOp.Match else EditOp.Substitute
      let r := backtraceRevF a b f i j
      (op :: r.1, a.getD i emptyS :: r.2.1, b.getD j emptyS :: r.2.2)
    else if oLt up left then
      let r := backtraceRevF a b f i (j + 1)
      (EditOp.Delete :: r.1, a.getD i emptyS :: r.2.1, gapMark :: r.2.2)
    else
      let r := backtraceRevF a b f (i + 1) j
      (EditOp.Insert :: r.1, gapMark :: r.2.1, b.getD j emptyS :: r.2.2)

/-- Backtrace of `dtw_align` starting at `(i, j)`, in push order. -/
def backtraceRev (a b : List String) (i j : ℕ) : List EditOp × List String × List String :=
  backtraceRevF a b (i + j) i j

/-- `dtw_align` of phonetic.rs: on an empty input it returns the two grapheme
sequences unchanged with no operations and cost `0`; otherwise it fills the
cost table, backtracks, and reverses the collected sequences. -/
def dtw_align (a b : List String) : Alignment :=
  if a.length = 0 ∨ b.length = 0 then ⟨a, b, [], some 0⟩
  else
    let r := backtraceRev a b a.length b.length
    ⟨r.2.1.reverse, r.2.2.reverse, r.1.reverse, dtwCost a b a.length b.length⟩

/-- Fuel-indexed trace of the backtrace loop: the list of visited states
`(i, j)` together with the operation the loop emits at that state. -/
def btStepsF (a b : List String) : ℕ → ℕ → ℕ → List (ℕ × ℕ × EditOp)
  | 0, _, _ => []
  | _ + 1, 0, 0 => []
  | f + 1, 0, j + 1 => (0, j + 1, EditOp.Insert) :: btStepsF a b f 0 j
  | f + 1, i + 1, 0 => (i + 1, 0, EditOp.Delete) :: btStepsF a b f i 0
  | f + 1, i + 1, j + 1 =>
    let diag := dtwCost a b i j
    let up := dtwCost a b i (j + 1)
    let left := dtwCost a b (i + 1) j
    if oLe diag up ∧ oLe diag left then
      (i + 1, j + 1,
        if a.getD i emptyS = b.getD j emptyS then EditOp.Match else EditOp.Substitute) ::
        btStepsF a b f i j
    else if oLt up left then
      (i + 1, j + 1, EditOp.Delete) :: btStepsF a b f i (j + 1)
    else
      (i + 1, j + 1, EditOp.Insert) :: btStepsF a b f (i + 1) j

/-- Trace of the backtrace loop from state `(i, j)`. -/
def btSteps (a b : List String) (i j : ℕ) : List (ℕ × ℕ × EditOp) :=
  btStepsF a b (i + j) i j

/-- `Alignment::extract_correspondences` of types.rs: the pairs
`(sequence_a[i], sequence_b[i])` at the positions whose operation is
`Substitute` (with in-bounds checks on both sequences). -/
def Alignment.extract_correspondences (al : Alignment) : List (String × String) :=
  (List.range al.operations.length).filterMap fun i =>
    if al.operations.getD i EditOp.Match = EditOp.Substitute ∧
        i < al.sequence_a.length ∧ i < al.sequence_b.length then
      some (al.sequence_a.getD i emptyS, al.sequence_b.getD i emptyS)
    else none

/-- `PyAlignment::correspondences` of lib.rs: the pairs of aligned graphemes
that differ and where neither side is the gap marker. -/
def pyCorrespondences (al : Alignment) : List (String × String) :=
  (List.range (min al.sequence_a.length al.sequence_b.length)).filterMap fun i =>
    let x := al.sequence_a.getD i emptyS
    let y := al.sequence_b.getD i emptyS
    if x ≠ y ∧ x ≠ gapMark ∧ y ≠ gapMark then some (x, y) else none

/-! ## Sparse similarity matrix (sparse.rs)

`SparseSimilarityMatrix::from_edges` collects the set of ids, sorts it,
inserts a triplet for every edge at or above the threshold (plus its
transpose off the diagonal) and a `1.0` triplet for every diagonal cell,
then converts to CSR.  The `sprs` triplet-to-CSR conversion sums duplicate
locations, and stores a row's entries in ascending column order. -/

/-- First index of a string in a list (`Vec::position` / the id-to-index
hash map built by enumeration), or `none` when absent. -/
def idIndex? : List String → String → Option ℕ
  | [], _ => none
  | y :: ys, x => if x = y then some 0 else (idIndex? ys x).map (· + 1)

/-- All ids occurring in an edge list (`HashSet` membership order is
irrelevant: the collected set is sorted afterwards). -/
def edgeIds (edges : List (String × String × ℚ)) : List String :=
  edges.foldr (fun e acc => e.1 :: e.2.1 :: acc) []

/-- Lexicographic strict order on character lists; on UTF-8 strings this
coincides with the byte-wise `Ord` used by Rust's `Vec::sort`. -/
def strLtL : List Char → List Char → Bool
  | [], [] => false
  | [], _ :: _ => true
  | _ :: _, [] => false
  | c :: cs, d :: ds =>
    if c.toNat < d.toNat then true else if d.toNat < c.toNat then false else strLtL cs ds

/-- Insert an id into a sorted duplicate-free id list, keeping it sorted and
duplicate-free. -/
def insDistinct (x : String) : List String → List String
  | [] => [x]
  | y :: ys =>
    if x = y then y :: ys
    else if strLtL x.data y.data then x :: y :: ys
    else y :: insDistinct x ys

/-- The sorted, duplicate-free id vector of `from_edges` (the source collects
the ids into a `HashSet`, dumps it to a vector and sorts; the result is the
sorted list of the distinct ids). -/
def sortedIds (edges : List (String × String × ℚ)) : List String :=
  (edgeIds edges).foldr insDistinct []

/-- The triplet list accumulated by `from_edges`: `(i, j, w)` and, off the
diagonal, `(j, i, w)` for every edge of weight `≥ τ`, followed by `(i, i, 1.0)`
for every id. -/
def tripletsOf (edges : List (String × String × ℚ)) (τ : ℚ) : List (ℕ × ℕ × ℚ) :=
  let ids := sortedIds edges
  (edges.foldl
    (fun acc e =>
      if τ ≤ e.2.2 then
        let i := (idIndex? ids e.1).getD 0
        let j := (idIndex? ids e.2.1).getD 0
        acc ++ ((i, j, e.2.2) :: if i ≠ j then [(j, i, e.2.2)] else [])
      else acc)
    []) ++ (List.range ids.length).map fun i => (i, i, (1 : ℚ))

/-- Whether the CSR matrix stores an entry at `(r, c)`. -/
def csrStored (trips : List (ℕ × ℕ × ℚ)) (r c : ℕ) : Bool :=
  trips.any fun t => t.1 == r && t.2.1 == c

/-- The CSR value at a stored location `(r, c)`: the sum of all triplets
there (`sprs` sums duplicate triplet locations). -/
def csrValue (trips : List (ℕ × ℕ × ℚ)) (r c : ℕ) : ℚ :=
  ((trips.filter fun t => t.1 == r && t.2.1 == c).map fun t => t.2.2).sum

/-- Insert a column index into a sorted duplicate-free index list. -/
def insDistinctN (x : ℕ) : List ℕ → List ℕ
  | [] => [x]
  | y :: ys =>
    if x = y then y :: ys
    else if x < y then x :: y :: ys
    else y :: insDistinctN x ys

/-- The stored column indices of row `r`, in ascending order (CSR row
iteration order). -/
def rowCols (trips : List (ℕ × ℕ × ℚ)) (r : ℕ) : List ℕ :=
  (((trips.filter fun t => t.1 == r).map fun t => t.2.1)).foldr insDistinctN []

/-- The stored entries `(col, value)` of row `r` in CSR iteration order. -/
def rowEntries (trips : List (ℕ × ℕ × ℚ)) (r : ℕ) : List (ℕ × ℚ) :=
  (rowCols trips r).map fun c => (c, csrValue trips r c)

/-- The ordering of the `(OrderedFloat(value), col_idx)` pairs pushed on the
`knn` max-heap: `p` comes no later than `q` when `p`'s value is larger, or
the values are equal and `p`'s column index is larger (Rust tuple order,
popped max-first). -/
def descLex (p q : ℚ × ℕ) : Prop := q.1 < p.1 ∨ (q.1 = p.1 ∧ q.2 ≤ p.2)

instance : DecidableRel descLex := fun p q =>
  inferInstanceAs (Decidable (q.1 < p.1 ∨ (q.1 = p.1 ∧ q.2 ≤ p.2)))

/-- The `(value, col)` pairs pushed on the `knn` heap: the stored entries of
the queried row, skipping the diagonal.  Empty when the id is absent. -/
def knnCandidates (edges : List (String × String × ℚ)) (τ : ℚ) (entry : String) :
    List (ℚ × ℕ) :=
  match idIndex? (sortedIds edges) entry with
  | none => []
  | some idx =>
    ((rowEntries (tripletsOf edges τ) idx).filter fun p => p.1 ≠ idx).map fun p => (p.2, p.1)

/-- The first `k` heap pops of `knn`: a `BinaryHeap` over a total order pops
its elements in descending order, so this is the `descLex`-sorted candidate
list truncated to `k`. -/
def knnPairs (edges : List (String × String × ℚ)) (τ : ℚ) (entry : String) (k : ℕ) :
    List (ℚ × ℕ) :=
  (List.insertionSort descLex (knnCandidates edges τ entry)).take k

/-- `SparseSimilarityMatrix::knn` on the matrix built by `from_edges`:
`(neighbor_id, weight)` pairs for the popped entries. -/
def knn (edges : List (String × String × ℚ)) (τ : ℚ) (entry : String) (k : ℕ) :
    List (String × ℚ) :=
  (knnPairs edges τ entry k).map fun p => ((sortedIds edges).getD p.2 emptyS, p.1)

/-- Total weight of the self-edges on id `x` that pass the threshold. -/
def selfWeight (edges : List (String × String × ℚ)) (τ : ℚ) (x : String) : ℚ :=
  ((edges.filter fun e => e.1 == x && e.2.1 == x && decide (τ ≤ e.2.2)).map
    fun e => e.2.2).sum

/-! ## Graph layer (graph.rs)

`CognateGraph` is a petgraph undirected graph: a node list (in insertion
order) and an edge list of index pairs with weights.  `Neighbors` of `u`
yields the target of every stored edge whose source is `u` followed by the
source of every stored edge whose target is `u` (self-loops once);
`edges(u).count()` counts the same incident edges. -/

/-- `CognateGraph`: node labels in insertion order, edges as index pairs. -/
structure CGraph where
  nodes : List String
  edges : List (ℕ × ℕ × ℚ)
deriving DecidableEq, Repr

/-- `get_or_create_node`: look the label up, appending a fresh node when
absent. -/
def getOrCreate (g : CGraph) (id : String) : CGraph × ℕ :=
  match idIndex? g.nodes id with
  | some i => (g, i)
  | none => ({ g with nodes := g.nodes ++ [id] }, g.nodes.length)

/-- `CognateGraph::add_edge` (multi-edges are preserved). -/
def addEdge (g : CGraph) (s t : String) (w : ℚ) : CGraph :=
  let p := getOrCreate g s
  let q := getOrCreate p.1 t
  { q.1 with edges := q.1.edges ++ [(p.2, q.2, w)] }

/-- `CognateGraph::from_edges`: threshold filter (order-preserving), then
edge insertion. -/
def CGraph.fromEdges (es : List (String × String × ℚ)) (τ : ℚ) : CGraph :=
  (es.filter fun e => decide (τ ≤ e.2.2)).foldl (fun g e => addEdge g e.1 e.2.1 e.2.2) ⟨[], []⟩

/-- petgraph `neighbors(u)` for an undirected graph. -/
def neighborsOf (g : CGraph) (u : ℕ) : List ℕ :=
  ((g.edges.filter fun e => e.1 == u).map fun e => e.2.1) ++
    ((g.edges.filter fun e => e.2.1 == u && e.1 != u).map fun e => e.1)

/-- Add `c` to slot `t` of a rank vector (`new_ranks[neighbor] += c`). -/
def bump (l : List ℚ) (t : ℕ) (c : ℚ) : List ℚ :=
  l.set t (l.getD t 0 + c)

/-- Distribute `c` to every target slot in turn. -/
def distribute (c : ℚ) (ts : List ℕ) (l : List ℚ) : List ℚ :=
  ts.foldl (fun acc t => bump acc t c) l

/-- One PageRank iteration of `compute_pagerank`: fill the next vector with
`(1 - d)/n`, then every node of positive degree distributes
`d * ranks[u] / degree(u)` to each of its neighbors. -/
def pagerankPass (g : CGraph) (d : ℚ) (ranks : List ℚ) : List ℚ :=
  (List.range g.nodes.length).foldl
    (fun acc u =>
      let nbrs := neighborsOf g u
      if 0 < nbrs.length then distribute (d * (ranks.getD u 0 / (nbrs.length : ℚ))) nbrs acc
      else acc)
    (List.replicate g.nodes.length ((1 - d) / (g.nodes.length : ℚ)))

/-- `compute_pagerank`: uniform initialization `1/n`, `iters` iterations,
then the id-to-rank pairing (the sum of the returned values does not depend
on the hash-map iteration order, so the pairing is modelled in node order). -/
def compute_pagerank (g : CGraph) (d : ℚ) (iters : ℕ) : List (String × ℚ) :=
  g.nodes.zip ((pagerankPass g d)^[iters] (List.replicate g.nodes.length (1 / (g.nodes.length : ℚ))))

/-- Well-formedness of a graph: edge endpoints are node indices.  Holds for
every graph built by `CGraph.fromEdges`. -/
def CGraph.WF (g : CGraph) : Prop :=
  ∀ e ∈ g.edges, e.1 < g.nodes.length ∧ e.2.1 < g.nodes.length

/-- Adjacency: `v` occurs among the neighbors of `u`. -/
def Adj (g : CGraph) (u v : ℕ) : Prop := v ∈ neighborsOf g u

instance (g : CGraph) (u v : ℕ) : Decidable (Adj g u v) :=
  inferInstanceAs (Decidable (v ∈ neighborsOf g u))

/-- Connectivity: every node reaches every node through adjacency steps. -/
def Connected (g : CGraph) : Prop :=
  ∀ u v, u < g.nodes.length → v < g.nodes.length → Relation.ReflTransGen (Adj g) u v

/-! ## Clustering layer (cluster.rs) -/

/-- `UnionFind`: parent and rank arrays. -/
structure UnionFind where
  parent : List ℕ
  rank : List ℕ
deriving DecidableEq, Repr

/-- `UnionFind::new(n)`. -/
def UnionFind.new (n : ℕ) : UnionFind := ⟨List.range n, List.replicate n 0⟩

/-- `UnionFind::find` with path compression; the fuel bounds the recursion
depth and is set to the array size, which exceeds the length of every parent
chain of a forest reachable from `UnionFind.new` by `union`/`find`. -/
def UnionFind.findAux : ℕ → UnionFind → ℕ → UnionFind × ℕ
  | 0, uf, x => (uf, x)
  | f + 1, uf, x =>
    let p := uf.parent.getD x x
    if p = x then (uf, x)
    else
      let r := UnionFind.findAux f uf p
      ({ r.1 with parent := r.1.parent.set x r.2 }, r.2)

/-- `UnionFind::find`. -/
def UnionFind.find (uf : UnionFind) (x : ℕ) : UnionFind × ℕ :=
  UnionFind.findAux uf.parent.length uf x

/-- `UnionFind::union` by rank; on equal ranks `y`'s root is attached under
`x`'s root, whose rank increments. -/
def UnionFind.union (uf : UnionFind) (x y : ℕ) : UnionFind :=
  let r1 := uf.find x
  let r2 := r1.1.find y
  let uf2 := r2.1
  let rootX := r1.2
  let rootY := r2.2
  if rootX = rootY then uf2
  else if uf2.rank.getD rootX 0 < uf2.rank.getD rootY 0 then
    { uf2 with parent := uf2.parent.set rootX rootY }
  else if uf2.rank.getD rootY 0 < uf2.rank.getD rootX 0 then
    { uf2 with parent := uf2.parent.set rootY rootX }
  else
    { parent := uf2.parent.set rootY rootX,
      rank := uf2.rank.set rootX (uf2.rank.getD rootX 0 + 1) }

/-- Append `i` to the bucket of root `r`, keeping buckets in first-occurrence
order. -/
def insertBucket : List (ℕ × List ℕ) → ℕ → ℕ → List (ℕ × List ℕ)
  | [], r, i => [(r, [i])]
  | (r', xs) :: rest, r, i =>
    if r' = r then (r', xs ++ [i]) :: rest else (r', xs) :: insertBucket rest r i

/-- The groups built by `UnionFind::components`, keyed by root, enumerated in
first-occurrence order of the roots (the `HashMap` grouping is
order-insensitive; only its final iteration order is unspecified). -/
def UnionFind.componentsCanonical (uf : UnionFind) : List (List ℕ) :=
  (((List.range uf.parent.length).foldl
      (fun st i =>
        let fr := st.1.find i
        (fr.1, insertBucket st.2 fr.2 i))
      (uf, ([] : List (ℕ × List ℕ)))).2).map fun p => p.2

/-- The possible outputs of `UnionFind::components`:
`HashMap::into_values` yields the buckets in an unspecified per-process
order, so any permutation of the canonical enumeration can be observed. -/
def UnionFind.ComponentsResult (uf : UnionFind) (out : List (List ℕ)) : Prop :=
  out.Perm uf.componentsCanonical

/-- The union-find state built by `threshold_clustering` before reading off
components: union every pair of similarity at least `τ`. -/
def thresholdClusteringUF (sims : List (ℕ × ℕ × ℚ)) (n : ℕ) (τ : ℚ) : UnionFind :=
  sims.foldl (fun uf s => if τ ≤ s.2.2 then uf.union s.1 s.2.1 else uf) (UnionFind.new n)

/-- The possible outputs of `threshold_clustering(sims, n, τ)`. -/
def ThresholdClusteringResult (sims : List (ℕ × ℕ × ℚ)) (n : ℕ) (τ : ℚ)
    (out : List (List ℕ)) : Prop :=
  (thresholdClusteringUF sims n τ).ComponentsResult out

/-- Connected component of the cognate graph (`CognateSet` in types.rs);
`CognateSet::new` sets `size` to the member count. -/
structure CognateSet where
  id : ℕ
  members : List String
  size : ℕ
deriving DecidableEq, Repr

/-- `CognateGraph::mark_component` (graph.rs): iterative DFS that marks every
node reachable from the stack with `component_id` in the component map
(`0` = unassigned); each pushed neighbor is checked against the current map.
The stack is a `Vec` popped from the end, so the neighbors of a freshly
marked node land on the stack with the last neighbor on top.  The fuel only
bounds the loop iterations (each iteration pops one entry); `dfsFuel`
exceeds the total number of pushes of any run. -/
def markComponent (g : CGraph) (compId : ℕ) : ℕ → List ℕ → List ℕ → List ℕ
  | 0, _, cm => cm
  | _ + 1, [], cm => cm
  | f + 1, node :: stack, cm =>
    if cm.getD node 0 ≠ 0 then markComponent g compId f stack cm
    else
      let cm2 := cm.set node compId
      markComponent g compId f
        (((neighborsOf g node).filter fun nb => cm2.getD nb 0 = 0).reverse ++ stack) cm2

/-- Fuel bound for any `mark_component` run on `g`: one initial push per
start node plus at most one push per endpoint of every stored edge, per
node. -/
def dfsFuel (g : CGraph) : ℕ :=
  (g.nodes.length + 1) * (2 * g.edges.length + g.nodes.length + 1)

/-- The component map built by `find_cognate_sets`: nodes are scanned in
index order and every still-unassigned node starts a new component numbered
from `1` (the initial `connected_components` call of the source is an unused
no-op and is not modelled). -/
def assignComponents (g : CGraph) : List ℕ :=
  ((List.range g.nodes.length).foldl
    (fun st node =>
      if st.2.getD node 0 = 0 then
        (st.1 + 1, markComponent g (st.1 + 1) (dfsFuel g) [node] st.2)
      else st)
    (0, List.replicate g.nodes.length 0)).2

/-- Append a member label to the bucket of a component id, keeping buckets in
first-occurrence order. -/
def insertBucketS : List (ℕ × List String) → ℕ → String → List (ℕ × List String)
  | [], r, s => [(r, [s])]
  | (r', xs) :: rest, r, s =>
    if r' = r then (r', xs ++ [s]) :: rest else (r', xs) :: insertBucketS rest r s

/-- The cognate sets built by `find_cognate_sets`: node labels are grouped by
component id in node-index order (so each bucket's content is
deterministic), enumerated canonically in first-occurrence order of the
component ids. -/
def CGraph.findCognateSetsCanonical (g : CGraph) : List CognateSet :=
  (((List.range g.nodes.length).foldl
      (fun buckets idx =>
        insertBucketS buckets ((assignComponents g).getD idx 0) (g.nodes.getD idx emptyS))
      []).map fun b => ⟨b.1, b.2, b.2.length⟩)

/-- The possible outputs of `find_cognate_sets`: the grouping
`HashMap::into_iter` yields the component buckets in an unspecified
per-process order, so any permutation of the canonical enumeration can be
observed. -/
def CGraph.FindCognateSetsResult (g : CGraph) (out : List CognateSet) : Prop :=
  out.Perm g.findCognateSetsCanonical

/-- Increment the count of one correspondence pair in an association list
(the `HashMap` counting of `extract_sound_correspondences` is
content-deterministic; first-occurrence order is the canonical
enumeration). -/
def bumpCount : List (String × String × ℕ) → String × String → List (String × String × ℕ)
  | [], p => [(p.1, p.2, 1)]
  | (a, b, c) :: rest, p =>
    if a = p.1 ∧ b = p.2 then (a, b, c + 1) :: rest else (a, b, c) :: bumpCount rest p

/-- The correspondence counts collected by `extract_sound_correspondences`
over all alignments. -/
def corrCounts (als : List Alignment) : List (String × String × ℕ) :=
  als.foldl (fun acc al => al.extract_correspondences.foldl bumpCount acc) []

/-- The possible outputs of `extract_sound_correspondences`: the counted
pairs are dumped from the `HashMap` in an unspecified per-process order and
then stably sorted by descending count only, so the observable outputs are
exactly the permutations of the counts that are weakly sorted by descending
count. -/
def ExtractCorrespondencesResult (als : List Alignment)
    (out : List (String × String × ℕ)) : Prop :=
  out.Perm (corrCounts als) ∧ out.Pairwise fun p q => q.2.2 ≤ p.2.2

/-! ## Theorems -/

/-- Claim C4, divergence of the two `phonetic_distance` implementations on a
pair of empty strings: the `phonetic-rs` implementation returns `0.0` where
the claim (and the `langviz-rs` implementation, and the stated identity law)
require `1.0`. -/
theorem phonetic_distance_empty_divergence :
    phoneticRS_distance [] [] = 0 ∧ phonetic_distance [] [] = 1 ∧ (0 : ℚ) ≠ 1 := by
  refine ⟨rfl, rfl, by norm_num⟩

/-- Claim C1 counterexample: `dtw_align` on inputs `"a"` and `""` returns the
grapheme sequences of the inputs unchanged, so `sequence_a` has length `1`
while `operations` is empty, and the two sequences are not both empty. -/
theorem dtw_align_one_empty_counterexample :
    (dtw_align ["a"] []).sequence_a.length ≠ (dtw_align ["a"] []).operations.length ∧
      (dtw_align ["a"] []).sequence_a ≠ [] := by
  refine ⟨by decide, by decide⟩

/-- Claim C10 counterexample: when an input grapheme is itself the gap marker
`"-"`, the Python-boundary extraction drops the substitution that
`extract_correspondences` reports. -/
theorem correspondences_gap_counterexample :
    pyCorrespondences (dtw_align ["-"] ["x"]) = [] ∧
      Alignment.extract_correspondences (dtw_align ["-"] ["x"]) = [("-", "x")] := by
  refine ⟨by decide, by decide⟩

/-- Claim C6 counterexample: a self-edge of weight `0.9` at threshold `0.5`
is inserted as a triplet at the diagonal cell in addition to the `1.0`
diagonal triplet, and the CSR conversion sums duplicates, so the stored
diagonal value is `1.9`, not `1.0`. -/
theorem diagonal_self_edge_counterexample :
    csrValue (tripletsOf [("a", "a", (9 : ℚ)/10)] (1/2)) 0 0 = 19/10 ∧
      ((19 : ℚ)/10) ≠ 1 ∧ csrStored (tripletsOf [("a", "a", (9 : ℚ)/10)] (1/2)) 0 0 = true := by
  refine ⟨?_, by norm_num, ?_⟩ <;>
    norm_num [csrValue, csrStored, tripletsOf, sortedIds, edgeIds, insDistinct, idIndex?,
      List.range_succ]

/-- Claim C3 counterexample: two stored entries of equal weight `0.5` in the
row of `"a"` are returned with the larger column index first (`"c"` before
`"b"`), not in ascending column order. -/
theorem knn_tie_counterexample :
    knn [("a", "b", (1 : ℚ)/2), ("a", "c", 1/2)] 0 "a" 2 = [("c", 1/2), ("b", 1/2)] ∧
      ([("c", (1 : ℚ)/2), ("b", 1/2)] : List (String × ℚ)) ≠ [("b", 1/2), ("c", 1/2)] := by
  constructor
  · norm_num +decide [knn, knnPairs, knnCandidates, rowEntries, rowCols, insDistinctN,
      csrValue, tripletsOf, sortedIds, edgeIds, insDistinct, idIndex?, descLex,
      List.insertionSort, List.orderedInsert, emptyS, List.range_succ]
  · intro h
    simp only [List.cons.injEq, Prod.mk.injEq] at h
    exact absurd h.1.1 (by decide)

/-- Claim C5 counterexample: aligning `"aba"` with `"bab"`, the executed
backtrace visits the interior state `(3, 3)` where the diagonal predecessor
costs `2` and the up and left predecessors both cost `1`: the diagonal
condition fails, up and left tie, and the loop emits `Insert` (the left
move), not the delete move the claim requires. -/
theorem backtrace_tie_counterexample :
    (3, 3, EditOp.Insert) ∈ btSteps ["a", "b", "a"] ["b", "a", "b"] 3 3 ∧
      oLe (dtwCost ["a", "b", "a"] ["b", "a", "b"] 2 2)
          (dtwCost ["a", "b", "a"] ["b", "a", "b"] 2 3) = false ∧
      dtwCost ["a", "b", "a"] ["b", "a", "b"] 2 3 =
        dtwCost ["a", "b", "a"] ["b", "a", "b"] 3 2 := by
  refine ⟨by decide, by decide, by decide⟩

/-- Claim C2 counterexample: with no similarity pairs and two items,
`threshold_clustering` builds two singleton components, and both orderings of
the returned component list are possible outputs (the order is the
per-process-random `HashMap` iteration order), so two runs on identical
inputs need not return identical outputs. -/
theorem clustering_order_counterexample :
    ThresholdClusteringResult [] 2 (1/2) [[0], [1]] ∧
      ThresholdClusteringResult [] 2 (1/2) [[1], [0]] ∧
      ([[0], [1]] : List (List ℕ)) ≠ [[1], [0]] := by
  refine ⟨?_, ?_, by decide⟩ <;>
  · unfold ThresholdClusteringResult UnionFind.ComponentsResult thresholdClusteringUF
    decide

/-! ### DTW fuel elimination and basic shape lemmas -/

theorem dtwCostF_eq_of_le (a b : List String) :
    ∀ f g i j, i + j ≤ f → i + j ≤ g → dtwCostF a b f i j = dtwCostF a b g i j := by
  intro f
  induction f with
  | zero =>
    intro g i j hf _
    have hi : i = 0 := by omega
    have hj : j = 0 := by omega
    subst hi; subst hj
    simp [dtwCostF]
  | succ f ih =>
    intro g i j hf hg
    match i, j with
    | 0, 0 => simp [dtwCostF]
    | 0, j + 1 =>
      match g, hg with
      | g + 1, _ => simp [dtwCostF]
    | i + 1, 0 =>
      match g, hg with
      | g + 1, _ => simp [dtwCostF]
    | i + 1, j + 1 =>
      match g, hg with
      | g + 1, hg =>
        have h1 : dtwCostF a b f i (j + 1) = dtwCostF a b g i (j + 1) :=
          ih g i (j + 1) (by omega) (by omega)
        have h2 : dtwCostF a b f (i + 1) j = dtwCostF a b g (i + 1) j :=
          ih g (i + 1) j (by omega) (by omega)
        have h3 : dtwCostF a b f i j = dtwCostF a b g i j :=
          ih g i j (by omega) (by omega)
        simp only [dtwCostF, h1, h2, h3]

theorem dtwCost_zero_zero (a b : List String) : dtwCost a b 0 0 = some 0 := rfl

theorem dtwCost_zero_succ (a b : List String) (j : ℕ) : dtwCost a b 0 (j + 1) = none := rfl

theorem dtwCost_succ_zero (a b : List String) (i : ℕ) : dtwCost a b (i + 1) 0 = none := rfl

/-- The DTW recurrence, with the fuel eliminated. -/
theorem dtwCost_succ_succ (a b : List String) (i j : ℕ) :
    dtwCost a b (i + 1) (j + 1) =
      if i < a.length ∧ j < b.length then
        oAdd (if a.getD i emptyS = b.getD j emptyS then some 0 else some 1)
          (oMin (oMin (dtwCost a b i (j + 1)) (dtwCost a b (i + 1) j)) (dtwCost a b i j))
      else none := by
  show dtwCostF a b (i + 1 + (j + 1)) (i + 1) (j + 1) = _
  have hstep : i + 1 + (j + 1) = (i + j + 1) + 1 := by omega
  rw [hstep]
  simp only [dtwCostF]
  rw [dtwCostF_eq_of_le a b (i + j + 1) (i + (j + 1)) i (j + 1) (by omega) (by omega),
    dtwCostF_eq_of_le a b (i + j + 1) ((i + 1) + j) (i + 1) j (by omega) (by omega),
    dtwCostF_eq_of_le a b (i + j + 1) (i + j) i j (by omega) (by omega)]
  rfl

theorem backtraceRevF_eq_of_le (a b : List String) :
    ∀ f g i j, i + j ≤ f → i + j ≤ g → backtraceRevF a b f i j = backtraceRevF a b g i j := by
  intro f
  induction f with
  | zero =>
    intro g i j hf _
    have hi : i = 0 := by omega
    have hj : j = 0 := by omega
    subst hi; subst hj
    cases g <;> simp [backtraceRevF]
  | succ f ih =>
    intro g i j hf hg
    match i, j with
    | 0, 0 => cases g <;> simp [backtraceRevF]
    | 0, j + 1 =>
      match g, hg with
      | g + 1, hg => simp only [backtraceRevF, ih g 0 j (by omega) (by omega)]
    | i + 1, 0 =>
      match g, hg with
      | g + 1, hg => simp only [backtraceRevF, ih g i 0 (by omega) (by omega)]
    | i + 1, j + 1 =>
      match g, hg with
      | g + 1, hg =>
        simp only [backtraceRevF, ih g i j (by omega) (by omega),
          ih g i (j + 1) (by omega) (by omega), ih g (i + 1) j (by omega) (by omega)]

/-- The backtrace loop, with the fuel eliminated: interior case. -/
theorem backtraceRev_succ_succ (a b : List String) (i j : ℕ) :
    backtraceRev a b (i + 1) (j + 1) =
      (let diag := dtwCost a b i j
       let up := dtwCost a b i (j + 1)
       let left := dtwCost a b (i + 1) j
       if oLe diag up ∧ oLe diag left then
         let op := if a.getD i emptyS = b.getD j emptyS then EditOp.Match else EditOp.Substitute
         let r := backtraceRev a b i j
         (op :: r.1, a.getD i emptyS :: r.2.1, b.getD j emptyS :: r.2.2)
       else if oLt up left then
         let r := backtraceRev a b i (j + 1)
         (EditOp.Delete :: r.1, a.getD i emptyS :: r.2.1, gapMark :: r.2.2)
       else
         let r := backtraceRev a b (i + 1) j
         (EditOp.Insert :: r.1, gapMark :: r.2.1, b.getD j emptyS :: r.2.2)) := by
  show backtraceRevF a b (i + 1 + (j + 1)) (i + 1) (j + 1) = _
  have hstep : i + 1 + (j + 1) = (i + j + 1) + 1 := by omega
  rw [hstep]
  simp only [backtraceRevF]
  rw [backtraceRevF_eq_of_le a b (i + j + 1) (i + j) i j (by omega) (by omega),
    backtraceRevF_eq_of_le a b (i + j + 1) (i + (j + 1)) i (j + 1) (by omega) (by omega),
    backtraceRevF_eq_of_le a b (i + j + 1) ((i + 1) + j) (i + 1) j (by omega) (by omega)]
  rfl

/-- The three vectors collected by the backtrace always have equal lengths:
each loop iteration pushes exactly one element onto each of them. -/
theorem backtraceRevF_lengths (a b : List String) :
    ∀ f i j, (backtraceRevF a b f i j).1.length = (backtraceRevF a b f i j).2.1.length ∧
      (backtraceRevF a b f i j).1.length = (backtraceRevF a b f i j).2.2.length := by
  intro f
  induction f with
  | zero => intro i j; simp [backtraceRevF]
  | succ f ih =>
    intro i j
    match i, j with
    | 0, 0 => simp [backtraceRevF]
    | 0, j + 1 => simpa [backtraceRevF] using ih 0 j
    | i + 1, 0 => simpa [backtraceRevF] using ih i 0
    | i + 1, j + 1 =>
      simp only [backtraceRevF]
      split
      · simpa using ih i j
      · split
        · simpa using ih i (j + 1)
        · simpa using ih (i + 1) j

/-- Claim C1 (amended): `dtw_align` produces equal-length `sequence_a`,
`sequence_b` and `operations` whenever both inputs are non-empty; when either
input is empty it returns the two grapheme sequences unchanged with no
operations and cost `0` (so the sequences are both empty exactly when both
inputs are). -/
theorem dtw_align_shape (a b : List String) :
    (a = [] ∨ b = [] → dtw_align a b = ⟨a, b, [], some 0⟩) ∧
      (a ≠ [] → b ≠ [] →
        (dtw_align a b).sequence_a.length = (dtw_align a b).operations.length ∧
          (dtw_align a b).sequence_b.length = (dtw_align a b).operations.length) := by
  constructor
  · intro h
    have hlen : a.length = 0 ∨ b.length = 0 := by
      rcases h with h | h <;> simp [h]
    unfold dtw_align
    rw [if_pos hlen]
  · intro ha hb
    have hlen : ¬(a.length = 0 ∨ b.length = 0) := by
      simp [List.length_eq_zero]
      exact ⟨ha, hb⟩
    have h := backtraceRevF_lengths a b (a.length + b.length) a.length b.length
    simp only [dtw_align, if_neg hlen, backtraceRev]
    constructor
    · simpa using h.1.symm
    · simpa using h.2.symm

/-- Claim C1 amended, witness at the concrete input `("x", "y")`. -/
theorem dtw_align_shape_witness :
    (dtw_align ["x"] ["y"]).sequence_a.length = (dtw_align ["x"] ["y"]).operations.length ∧
      (dtw_align ["x"] ["y"]).sequence_b.length = (dtw_align ["x"] ["y"]).operations.length :=
  (dtw_align_shape ["x"] ["y"]).2 (by decide) (by decide)

/-- Every in-range interior cell of the DTW cost table is finite and bounded
by `max i j`: the table can always follow the diagonal (or hug the first
computed row or column), paying at most `1` per step. -/
theorem dtwCost_bounded (a b : List String) :
    ∀ s i j, i + j = s → 1 ≤ i → i ≤ a.length → 1 ≤ j → j ≤ b.length →
      ∃ c, dtwCost a b i j = some c ∧ c ≤ max i j := by
  intro s
  induction s using Nat.strong_induction_on with
  | _ s ih =>
    intro i j hs hi1 hia hj1 hjb
    match i, hi1, j, hj1 with
    | i + 1, _, j + 1, _ =>
    rw [dtwCost_succ_succ, if_pos ⟨by omega, by omega⟩]
    have hmc : ∃ m, (if a.getD i emptyS = b.getD j emptyS then some 0 else some 1) =
        some m ∧ m ≤ 1 := by
      split
      · exact ⟨0, rfl, by omega⟩
      · exact ⟨1, rfl, le_refl 1⟩
    obtain ⟨m, hm, hm1⟩ := hmc
    rw [hm]
    match i, j, hs with
    | 0, 0, hs =>
      refine ⟨m, ?_, by simp; omega⟩
      rw [dtwCost_zero_succ, dtwCost_succ_zero, dtwCost_zero_zero]
      simp [oMin, oAdd]
    | 0, j + 1, hs =>
      obtain ⟨c, hc, hcle⟩ := ih (1 + (j + 1)) (by omega) 1 (j + 1) rfl
        (le_refl 1) (by omega) (by omega) (by omega)
      refine ⟨m + c, ?_, ?_⟩
      · rw [dtwCost_zero_succ]
        have : dtwCost a b 0 (j + 1) = none := dtwCost_zero_succ a b j
        rw [this, hc]
        simp [oMin, oAdd]
      · have : c ≤ j + 1 := by simpa using hcle
        simp
        omega
    | i + 1, 0, hs =>
      obtain ⟨c, hc, hcle⟩ := ih ((i + 1) + 1) (by omega) (i + 1) 1 rfl
        (by omega) (by omega) (le_refl 1) (by omega)
      refine ⟨m + c, ?_, ?_⟩
      · rw [dtwCost_succ_zero]
        have h2 : dtwCost a b (i + 1) 0 = none := dtwCost_succ_zero a b i
        rw [h2, hc]
        simp [oMin, oAdd]
      · have : c ≤ i + 1 := by simpa using hcle
        simp
        omega
    | i + 1, j + 1, hs =>
      obtain ⟨cu, hcu, hcule⟩ := ih ((i + 1) + (j + 2)) (by omega) (i + 1) (j + 2) rfl
        (by omega) (by omega) (by omega) (by omega)
      obtain ⟨cl, hcl, hclle⟩ := ih ((i + 2) + (j + 1)) (by omega) (i + 2) (j + 1) rfl
        (by omega) (by omega) (by omega) (by omega)
      obtain ⟨cd, hcd, hcdle⟩ := ih ((i + 1) + (j + 1)) (by omega) (i + 1) (j + 1) rfl
        (by omega) (by omega) (by omega) (by omega)
      refine ⟨m + min (min cu cl) cd, ?_, ?_⟩
      · rw [hcu, hcl, hcd]
        simp [oMin, oAdd]
      · have h1 : min (min cu cl) cd ≤ cd := min_le_right _ _
        have h2 : cd ≤ max (i + 1) (j + 1) := hcdle
        simp only [Nat.max_def] at h2 ⊢
        split at h2 <;> split <;> omega

/-- Claim C7: the cost of the alignment returned by `dtw_align` is a finite
natural number, hence at least `0`, and at most `max(|A|, |B|)` counted in
grapheme clusters. -/
theorem dtw_align_cost_bound (a b : List String) :
    ∃ c : ℕ, (dtw_align a b).cost = some c ∧ 0 ≤ c ∧ c ≤ max a.length b.length := by
  by_cases h : a.length = 0 ∨ b.length = 0
  · refine ⟨0, ?_, Nat.zero_le _, Nat.zero_le _⟩
    unfold dtw_align
    rw [if_pos h]
  · have ha : 1 ≤ a.length := by omega
    have hb : 1 ≤ b.length := by omega
    obtain ⟨c, hc, hle⟩ := dtwCost_bounded a b (a.length + b.length) a.length b.length rfl
      ha le_rfl hb le_rfl
    refine ⟨c, ?_, Nat.zero_le _, hle⟩
    unfold dtw_align
    rw [if_neg h]
    exact hc

theorem oLt_irrefl (x : Option ℕ) : oLt x x = false := by
  cases x <;> simp [oLt]

theorem btStepsF_eq_of_le (a b : List String) :
    ∀ f g i j, i + j ≤ f → i + j ≤ g → btStepsF a b f i j = btStepsF a b g i j := by
  intro f
  induction f with
  | zero =>
    intro g i j hf _
    have hi : i = 0 := by omega
    have hj : j = 0 := by omega
    subst hi; subst hj
    cases g <;> simp [btStepsF]
  | succ f ih =>
    intro g i j hf hg
    match i, j with
    | 0, 0 => cases g <;> simp [btStepsF]
    | 0, j + 1 =>
      match g, hg with
      | g + 1, hg => simp only [btStepsF, ih g 0 j (by omega) (by omega)]
    | i + 1, 0 =>
      match g, hg with
      | g + 1, hg => simp only [btStepsF, ih g i 0 (by omega) (by omega)]
    | i + 1, j + 1 =>
      match g, hg with
      | g + 1, hg =>
        simp only [btStepsF, ih g i j (by omega) (by omega),
          ih g i (j + 1) (by omega) (by omega), ih g (i + 1) j (by omega) (by omega)]

/-- The operations emitted along the backtrace trace are exactly the
operation vector collected by the backtrace. -/
theorem btStepsF_ops (a b : List String) :
    ∀ f i j, (btStepsF a b f i j).map (fun s => s.2.2) = (backtraceRevF a b f i j).1 := by
  intro f
  induction f with
  | zero => intro i j; simp [btStepsF, backtraceRevF]
  | succ f ih =>
    intro i j
    match i, j with
    | 0, 0 => simp [btStepsF, backtraceRevF]
    | 0, j + 1 => simp [btStepsF, backtraceRevF, ih]
    | i + 1, 0 => simp [btStepsF, backtraceRevF, ih]
    | i + 1, j + 1 =>
      simp only [btStepsF, backtraceRevF]
      by_cases h1 : oLe (dtwCost a b i j) (dtwCost a b i (j + 1)) = true ∧
          oLe (dtwCost a b i j) (dtwCost a b (i + 1) j) = true
      · simp [h1, ih]
      · by_cases h2 : oLt (dtwCost a b i (j + 1)) (dtwCost a b (i + 1) j) = true
        · simp [h1, h2, ih]
        · simp [h1, h2, ih]

/-- Per-step policy of the backtrace loop: at an interior state, the diagonal
operation is emitted exactly under the diagonal condition, and when that
condition fails and up equals left the emitted operation is `Insert`. -/
theorem btStepsF_policy (a b : List String) :
    ∀ f i0 j0 i j op, (i + 1, j + 1, op) ∈ btStepsF a b f i0 j0 →
      ((oLe (dtwCost a b i j) (dtwCost a b i (j + 1)) = true ∧
          oLe (dtwCost a b i j) (dtwCost a b (i + 1) j) = true) →
        op = if a.getD i emptyS = b.getD j emptyS then EditOp.Match else EditOp.Substitute) ∧
      (¬(oLe (dtwCost a b i j) (dtwCost a b i (j + 1)) = true ∧
          oLe (dtwCost a b i j) (dtwCost a b (i + 1) j) = true) →
        dtwCost a b i (j + 1) = dtwCost a b (i + 1) j → op = EditOp.Insert) := by
  intro f
  induction f with
  | zero => intro i0 j0 i j op h; simp [btStepsF] at h
  | succ f ih =>
    intro i0 j0 i j op h
    match i0, j0 with
    | 0, 0 => simp [btStepsF] at h
    | 0, j0 + 1 =>
      simp only [btStepsF, List.mem_cons] at h
      rcases h with h | h
      · simp at h
      · exact ih 0 j0 i j op h
    | i0 + 1, 0 =>
      simp only [btStepsF, List.mem_cons] at h
      rcases h with h | h
      · simp at h
      · exact ih i0 0 i j op h
    | i0 + 1, j0 + 1 =>
      simp only [btStepsF] at h
      by_cases h1 : oLe (dtwCost a b i0 j0) (dtwCost a b i0 (j0 + 1)) = true ∧
          oLe (dtwCost a b i0 j0) (dtwCost a b (i0 + 1) j0) = true
      · rw [if_pos h1] at h
        rcases List.mem_cons.mp h with h | h
        · obtain ⟨hi, hj, hop⟩ : i + 1 = i0 + 1 ∧ j + 1 = j0 + 1 ∧
              op = if a.getD i0 emptyS = b.getD j0 emptyS then EditOp.Match
                else EditOp.Substitute := by
            simpa [Prod.ext_iff] using h
          obtain rfl : i = i0 := by omega
          obtain rfl : j = j0 := by omega
          exact ⟨fun _ => hop, fun hn _ => absurd h1 hn⟩
        · exact ih i0 j0 i j op h
      · rw [if_neg h1] at h
        by_cases h2 : oLt (dtwCost a b i0 (j0 + 1)) (dtwCost a b (i0 + 1) j0) = true
        · rw [if_pos h2] at h
          rcases List.mem_cons.mp h with h | h
          · obtain ⟨hi, hj, hop⟩ : i + 1 = i0 + 1 ∧ j + 1 = j0 + 1 ∧ op = EditOp.Delete := by
              simpa [Prod.ext_iff] using h
            obtain rfl : i = i0 := by omega
            obtain rfl : j = j0 := by omega
            refine ⟨fun hc => absurd hc h1, fun _ hul => ?_⟩
            rw [hul] at h2
            rw [oLt_irrefl] at h2
            exact absurd h2 (by simp)
          · exact ih i0 (j0 + 1) i j op h
        · rw [if_neg h2] at h
          rcases List.mem_cons.mp h with h | h
          · obtain ⟨hi, hj, hop⟩ : i + 1 = i0 + 1 ∧ j + 1 = j0 + 1 ∧ op = EditOp.Insert := by
              simpa [Prod.ext_iff] using h
            obtain rfl : i = i0 := by omega
            obtain rfl : j = j0 := by omega
            exact ⟨fun hc => absurd hc h1, fun _ _ => hop⟩
          · exact ih (i0 + 1) j0 i j op h

/-- Claim C5 (amended): along the executed backtrace of `dtw_align`, at every
interior step the diagonal move is taken whenever the diagonal predecessor
cost is `<=` both the up and left predecessor costs; otherwise the delete
move is taken only when up is strictly smaller than left, so on remaining
ties between up and left the insert (left) move is emitted.  The traced
operations are exactly the operations of the returned alignment
(backtracked order reversed). -/
theorem backtrace_policy (a b : List String) :
    (∀ i j op, (i + 1, j + 1, op) ∈ btSteps a b a.length b.length →
        ((oLe (dtwCost a b i j) (dtwCost a b i (j + 1)) = true ∧
            oLe (dtwCost a b i j) (dtwCost a b (i + 1) j) = true) →
          op = if a.getD i emptyS = b.getD j emptyS then EditOp.Match else EditOp.Substitute) ∧
        (¬(oLe (dtwCost a b i j) (dtwCost a b i (j + 1)) = true ∧
            oLe (dtwCost a b i j) (dtwCost a b (i + 1) j) = true) →
          dtwCost a b i (j + 1) = dtwCost a b (i + 1) j → op = EditOp.Insert)) ∧
      (a ≠ [] → b ≠ [] →
        (dtw_align a b).operations = ((btSteps a b a.length b.length).map fun s => s.2.2).reverse) := by
  constructor
  · intro i j op h
    exact btStepsF_policy a b (a.length + b.length) a.length b.length i j op h
  · intro ha hb
    have hlen : ¬(a.length = 0 ∨ b.length = 0) := by
      simp [List.length_eq_zero]
      exact ⟨ha, hb⟩
    simp only [dtw_align, if_neg hlen, backtraceRev, btSteps]
    rw [btStepsF_ops]

/-- Claim C5 amended, witness: the alignment of `"aba"` against `"bab"`
reaches the interior tie state `(3, 3)` and the policy theorem applies there,
forcing the emitted operation `Insert`. -/
theorem backtrace_policy_witness :
    EditOp.Insert = EditOp.Insert ∧
      (dtw_align ["a", "b", "a"] ["b", "a", "b"]).operations =
        ((btSteps ["a", "b", "a"] ["b", "a", "b"] 3 3).map fun s => s.2.2).reverse := by
  constructor
  · exact ((backtrace_policy ["a", "b", "a"] ["b", "a", "b"]).1 2 2 EditOp.Insert
      (by decide)).2 (by decide) (by decide)
  · exact (backtrace_policy ["a", "b", "a"] ["b", "a", "b"]).2 (by decide) (by decide)

/-- Pointwise characterization of the backtrace output on gap-free inputs: a
position carries `Substitute` exactly when the two aligned graphemes differ
and neither is the gap marker. -/
theorem backtraceRevF_subst_iff (a b : List String)
    (ha : gapMark ∉ a) (hb : gapMark ∉ b) :
    ∀ f i j, i ≤ a.length → j ≤ b.length →
      ∀ p ∈ (backtraceRevF a b f i j).1.zip
          ((backtraceRevF a b f i j).2.1.zip (backtraceRevF a b f i j).2.2),
        (p.1 = EditOp.Substitute ↔
          p.2.1 ≠ p.2.2 ∧ p.2.1 ≠ gapMark ∧ p.2.2 ≠ gapMark) := by
  intro f
  induction f with
  | zero => intro i j _ _ p hp; simp [backtraceRevF] at hp
  | succ f ih =>
    intro i j hia hjb p hp
    match i, j with
    | 0, 0 => simp [backtraceRevF] at hp
    | 0, j + 1 =>
      simp only [backtraceRevF, List.zip_cons_cons, List.mem_cons] at hp
      rcases hp with rfl | hp
      · constructor
        · intro h; simp at h
        · rintro ⟨_, hg, _⟩; exact absurd rfl hg
      · exact ih 0 j (by omega) (by omega) p hp
    | i + 1, 0 =>
      simp only [backtraceRevF, List.zip_cons_cons, List.mem_cons] at hp
      rcases hp with rfl | hp
      · constructor
        · intro h; simp at h
        · rintro ⟨_, _, hg⟩; exact absurd rfl hg
      · exact ih i 0 (by omega) (by omega) p hp
    | i + 1, j + 1 =>
      by_cases h1 : oLe (dtwCost a b i j) (dtwCost a b i (j + 1)) = true ∧
          oLe (dtwCost a b i j) (dtwCost a b (i + 1) j) = true
      · by_cases heq : a.getD i emptyS = b.getD j emptyS
        · simp only [backtraceRevF, if_pos h1, if_pos heq, List.zip_cons_cons,
            List.mem_cons] at hp
          rcases hp with rfl | hp
          · constructor
            · intro h; simp at h
            · rintro ⟨hne, _, _⟩; exact absurd heq hne
          · exact ih i j (by omega) (by omega) p hp
        · simp only [backtraceRevF, if_pos h1, if_neg heq, List.zip_cons_cons,
            List.mem_cons] at hp
          rcases hp with rfl | hp
          · have hx : a.getD i emptyS ∈ a := by
              rw [List.getD_eq_getElem a emptyS (show i < a.length by omega)]
              exact List.getElem_mem _
            have hy : b.getD j emptyS ∈ b := by
              rw [List.getD_eq_getElem b emptyS (show j < b.length by omega)]
              exact List.getElem_mem _
            constructor
            · intro _
              exact ⟨heq, fun hg => ha (hg ▸ hx), fun hg => hb (hg ▸ hy)⟩
            · intro _; rfl
          · exact ih i j (by omega) (by omega) p hp
      · by_cases h2 : oLt (dtwCost a b i (j + 1)) (dtwCost a b (i + 1) j) = true
        · simp only [backtraceRevF, if_neg h1, if_pos h2, List.zip_cons_cons,
            List.mem_cons] at hp
          rcases hp with rfl | hp
          · constructor
            · intro h; simp at h
            · rintro ⟨_, _, hg⟩; exact absurd rfl hg
          · exact ih i (j + 1) (by omega) hjb p hp
        · simp only [backtraceRevF, if_neg h1, if_neg h2, List.zip_cons_cons,
            List.mem_cons] at hp
          rcases hp with rfl | hp
          · constructor
            · intro h; simp at h
            · rintro ⟨_, hg, _⟩; exact absurd rfl hg
          · exact ih (i + 1) j hia (by omega) p hp

/-- Claim C10 (amended): on inputs none of whose graphemes is the gap marker
`"-"` itself, the gap-free extraction used at the Python boundary
(`PyAlignment::correspondences`) agrees with the operations-based
`extract_correspondences` on every alignment produced by `dtw_align`. -/
theorem correspondences_agree (a b : List String)
    (ha : gapMark ∉ a) (hb : gapMark ∉ b) :
    pyCorrespondences (dtw_align a b) = (dtw_align a b).extract_correspondences := by
  by_cases hlen : a.length = 0 ∨ b.length = 0
  · have h := (dtw_align_shape a b).1 (by rcases hlen with h | h <;>
      [left; right] <;> simpa [List.length_eq_zero] using h)
    rw [h]
    unfold pyCorrespondences Alignment.extract_correspondences
    rcases hlen with h0 | h0 <;> simp [h0]
  · have hal : dtw_align a b =
        ⟨(backtraceRev a b a.length b.length).2.1.reverse,
         (backtraceRev a b a.length b.length).2.2.reverse,
         (backtraceRev a b a.length b.length).1.reverse,
         dtwCost a b a.length b.length⟩ := by
      unfold dtw_align
      rw [if_neg hlen]
    set r := backtraceRev a b a.length b.length with hrdef
    have hlens := backtraceRevF_lengths a b (a.length + b.length) a.length b.length
    have h21 : r.2.1.length = r.1.length := hlens.1.symm
    have h22 : r.2.2.length = r.1.length := hlens.2.symm
    set n := r.1.length with hndef
    have hiff := backtraceRevF_subst_iff a b ha hb (a.length + b.length)
      a.length b.length le_rfl le_rfl
    rw [hal]
    unfold pyCorrespondences Alignment.extract_correspondences
    simp only [List.length_reverse, h21, h22, Nat.min_self]
    refine List.filterMap_congr ?_
    intro k hk
    have hkn : k < n := by simpa using hk
    have hm : n - 1 - k < n := by omega
    have hm21 : n - 1 - k < r.2.1.length := by omega
    have hm22 : n - 1 - k < r.2.2.length := by omega
    have hzlen : n - 1 - k < (r.1.zip (r.2.1.zip r.2.2)).length := by
      simp [h21, h22]
      omega
    have hz12 : n - 1 - k < (r.2.1.zip r.2.2).length := by
      simp [h21, h22]
      omega
    have hmem : (r.1[n - 1 - k], (r.2.1[n - 1 - k], r.2.2[n - 1 - k])) ∈
        r.1.zip (r.2.1.zip r.2.2) := by
      have hz : (r.1.zip (r.2.1.zip r.2.2))[n - 1 - k] =
          (r.1[n - 1 - k], (r.2.1.zip r.2.2)[n - 1 - k]) :=
        List.getElem_zip
      have hz2 : (r.2.1.zip r.2.2)[n - 1 - k] =
          (r.2.1[n - 1 - k], r.2.2[n - 1 - k]) := List.getElem_zip
      rw [hz2] at hz
      exact hz ▸ List.getElem_mem hzlen
    have hkiff := hiff _ hmem
    have hops : (r.1.reverse).getD k EditOp.Match = r.1[n - 1 - k] := by
      rw [List.getD_eq_getElem _ _ (by simpa using hkn), List.getElem_reverse]
    have hsa : (r.2.1.reverse).getD k emptyS = r.2.1[n - 1 - k] := by
      rw [List.getD_eq_getElem _ _ (by simp [h21]; omega), List.getElem_reverse]
      congr 1
      omega
    have hsb : (r.2.2.reverse).getD k emptyS = r.2.2[n - 1 - k] := by
      rw [List.getD_eq_getElem _ _ (by simp [h22]; omega), List.getElem_reverse]
      congr 1
      omega
    simp only [hops, hsa, hsb, List.length_reverse, h21, h22]
    by_cases hsub : r.1[n - 1 - k] = EditOp.Substitute
    · rw [if_pos (hkiff.mp hsub), if_pos ⟨hsub, hkn, hkn⟩]
    · rw [if_neg (fun hc => hsub (hkiff.mpr hc)), if_neg (fun hc => hsub hc.1)]

/-- Claim C10 amended, witness at the concrete gap-free input
`("x", "y")`. -/
theorem correspondences_agree_witness :
    pyCorrespondences (dtw_align ["x"] ["y"]) =
      (dtw_align ["x"] ["y"]).extract_correspondences :=
  correspondences_agree ["x"] ["y"] (by decide) (by decide)

/-- Claim C2 (amended): the exported operations that enumerate a std
`HashMap` — `threshold_clustering` (via `UnionFind::components`),
`find_cognate_sets`, and `extract_sound_correspondences` (among equal
counts) — are deterministic up to the order of the returned top-level
collection: any two possible outputs on identical inputs (and, a fortiori,
the outputs of any two runs) are permutations of each other; the order
itself varies with the per-process hash-map iteration order. -/
theorem hashmap_order_outputs_perm :
    (∀ (sims : List (ℕ × ℕ × ℚ)) (n : ℕ) (τ : ℚ) (o₁ o₂ : List (List ℕ)),
        ThresholdClusteringResult sims n τ o₁ → ThresholdClusteringResult sims n τ o₂ →
          o₁.Perm o₂) ∧
      (∀ (g : CGraph) (o₁ o₂ : List CognateSet),
        g.FindCognateSetsResult o₁ → g.FindCognateSetsResult o₂ → o₁.Perm o₂) ∧
      (∀ (als : List Alignment) (o₁ o₂ : List (String × String × ℕ)),
        ExtractCorrespondencesResult als o₁ → ExtractCorrespondencesResult als o₂ →
          o₁.Perm o₂) := by
  refine ⟨?_, ?_, ?_⟩
  · intro sims n τ o₁ o₂ h₁ h₂
    exact List.Perm.trans h₁ (List.Perm.symm h₂)
  · intro g o₁ o₂ h₁ h₂
    exact List.Perm.trans h₁ (List.Perm.symm h₂)
  · intro als o₁ o₂ h₁ h₂
    exact List.Perm.trans h₁.1 (List.Perm.symm h₂.1)

/-- Claim C2 amended, witness: for each of the three operations, both
orderings of a two-element output are possible on a concrete input, and the
theorem makes them permutations of each other: the two singleton clusters of
`threshold_clustering([], 2, 0.5)`, the two cognate sets of the graph
`a—b, d`, and the two count-1 correspondences of the alignment of `"ab"`
with `"cd"`. -/
theorem hashmap_order_outputs_perm_witness :
    ([[0], [1]] : List (List ℕ)).Perm [[1], [0]] ∧
      ([(⟨1, ["a", "b"], 2⟩ : CognateSet), ⟨2, ["d"], 1⟩]).Perm
        [(⟨2, ["d"], 1⟩ : CognateSet), ⟨1, ["a", "b"], 2⟩] ∧
      ([("a", "c", 1), ("b", "d", 1)] : List (String × String × ℕ)).Perm
        [("b", "d", 1), ("a", "c", 1)] := by
  refine ⟨?_, ?_, ?_⟩
  · exact hashmap_order_outputs_perm.1 [] 2 (1/2) [[0], [1]] [[1], [0]]
      (by unfold ThresholdClusteringResult UnionFind.ComponentsResult thresholdClusteringUF
          decide)
      (by unfold ThresholdClusteringResult UnionFind.ComponentsResult thresholdClusteringUF
          decide)
  · exact hashmap_order_outputs_perm.2.1 ⟨["a", "b", "d"], [(0, 1, (9 : ℚ)/10)]⟩
      [⟨1, ["a", "b"], 2⟩, ⟨2, ["d"], 1⟩] [⟨2, ["d"], 1⟩, ⟨1, ["a", "b"], 2⟩]
      (by unfold CGraph.FindCognateSetsResult
          decide)
      (by unfold CGraph.FindCognateSetsResult
          decide)
  · exact hashmap_order_outputs_perm.2.2 [dtw_align ["a", "b"] ["c", "d"]]
      [("a", "c", 1), ("b", "d", 1)] [("b", "d", 1), ("a", "c", 1)]
      (by unfold ExtractCorrespondencesResult
          exact ⟨by decide, by decide⟩)
      (by unfold ExtractCorrespondencesResult
          exact ⟨by decide, by decide⟩)

/-! ### Levenshtein DP correctness and symmetry -/

theorem levRec_nil_left (m : List String) : levRec [] m = m.length := by
  simp [levRec]

theorem levRec_nil_right (l : List String) : levRec l [] = l.length := by
  cases l <;> simp [levRec]

theorem levRec_cons_cons (x y : String) (l m : List String) :
    levRec (x :: l) (y :: m) =
      min (min (levRec (x :: l) m + 1) (levRec l (y :: m) + 1))
        (levRec l m + if x = y then 0 else 1) := by
  rw [levRec]

/-- The edit-distance recursion is symmetric. -/
theorem levRec_symm : ∀ l m : List String, levRec l m = levRec m l := by
  intro l
  induction l with
  | nil => intro m; rw [levRec_nil_left, levRec_nil_right]
  | cons x l ihl =>
    intro m
    induction m with
    | nil => rw [levRec_nil_left, levRec_nil_right]
    | cons y m ihm =>
      rw [levRec_cons_cons, levRec_cons_cons]
      rw [ihm, ihl (y :: m), ihl m]
      have hc : (if x = y then 0 else 1) = (if y = x then (0 : ℕ) else 1) := by
        by_cases h : x = y <;> simp [h, Ne.symm, eq_comm]
      rw [hc]
      omega

theorem specRow_headD (u v : List String) (ys : List String) :
    (specRow u v ys).headD 0 = levRec u v := by
  cases ys <;> simp [specRow]

theorem specRow_cons_head (u v : List String) (ys : List String) :
    specRow u v ys = levRec u v :: (specRow u v ys).tail := by
  cases ys <;> simp [specRow]

/-- Row invariant of the inner Levenshtein loop: fed the previous DP row, it
produces the tail of the next DP row. -/
theorem levInner_spec (x : String) (u : List String) :
    ∀ ys v, levInner x ys (levRec (x :: u) v) (specRow u v ys) =
      (specRow (x :: u) v ys).tail := by
  intro ys
  induction ys with
  | nil => intro v; simp [levInner, specRow]
  | cons y ys ih =>
    intro v
    rw [specRow, levInner]
    simp only [specRow_headD]
    rw [← levRec_cons_cons x y u v]
    rw [ih (y :: v)]
    rw [show (specRow (x :: u) v (y :: ys)).tail = specRow (x :: u) (y :: v) ys by
      rw [specRow]; simp]
    exact (specRow_cons_head (x :: u) (y :: v) ys).symm

/-- Row invariant of the outer Levenshtein loop. -/
theorem levOuter_spec (b : List String) :
    ∀ xs u, levOuter b xs u.length (specRow u [] b) = specRow (xs.reverse ++ u) [] b := by
  intro xs
  induction xs with
  | nil => intro u; simp [levOuter]
  | cons x xs ih =>
    intro u
    rw [levOuter]
    have h2 : levInner x b (u.length + 1) (specRow u [] b) = (specRow (x :: u) [] b).tail := by
      rw [show u.length + 1 = levRec (x :: u) [] by rw [levRec_nil_right, List.length_cons]]
      exact levInner_spec x u b []
    rw [h2]
    have h3 : (u.length + 1) :: (specRow (x :: u) [] b).tail = specRow (x :: u) [] b := by
      rw [show u.length + 1 = levRec (x :: u) [] by rw [levRec_nil_right, List.length_cons]]
      exact (specRow_cons_head (x :: u) [] b).symm
    rw [h3]
    have h4 := ih (x :: u)
    simp only [List.length_cons] at h4
    rw [h4]
    simp [List.reverse_cons, List.append_assoc]

theorem specRow_getLastD (u : List String) :
    ∀ ys v d, (specRow u v ys).getLastD d = levRec u (ys.reverse ++ v) := by
  intro ys
  induction ys with
  | nil => intro v d; simp [specRow]
  | cons y ys ih =>
    intro v d
    rw [specRow, List.getLastD_cons, ih (y :: v)]
    simp [List.reverse_cons, List.append_assoc]

theorem specRow_nil_left : ∀ ys v : List String, specRow [] v ys =
    List.range' v.length (ys.length + 1) := by
  intro ys
  induction ys with
  | nil => intro v; simp [specRow, levRec_nil_left]
  | cons y ys ih =>
    intro v
    rw [specRow, levRec_nil_left, ih (y :: v)]
    simp only [List.length_cons, List.length_cons]
    rfl

/-- The two-row DP computes the edit-distance recursion (on the reversed
inputs, which is how the prefix DP reads off). -/
theorem levenshtein_eq_levRec (a b : List String) :
    levenshtein a b = levRec a.reverse b.reverse := by
  unfold levenshtein
  by_cases ha : a.length = 0
  · rw [if_pos ha]
    obtain rfl : a = [] := List.length_eq_zero.mp ha
    simp [levRec_nil_left]
  · rw [if_neg ha]
    by_cases hb : b.length = 0
    · rw [if_pos hb]
      obtain rfl : b = [] := List.length_eq_zero.mp hb
      simp [levRec_nil_right]
    · rw [if_neg hb]
      have h0 : List.range (b.length + 1) = specRow [] [] b := by
        rw [specRow_nil_left b []]
        rw [List.range_eq_range']
        rfl
      rw [h0]
      have h1 := levOuter_spec b a []
      simp only [List.length_nil, List.append_nil] at h1
      rw [h1, specRow_getLastD]
      simp

theorem levenshtein_symm (a b : List String) : levenshtein a b = levenshtein b a := by
  rw [levenshtein_eq_levRec, levenshtein_eq_levRec, levRec_symm]

/-! ### LCS DP correctness and symmetry -/

theorem lcsRec_nil_left (m : List String) : lcsRec [] m = 0 := by
  simp [lcsRec]

theorem lcsRec_nil_right (l : List String) : lcsRec l [] = 0 := by
  cases l <;> simp [lcsRec]

theorem lcsRec_cons_cons (x y : String) (l m : List String) :
    lcsRec (x :: l) (y :: m) =
      if x = y then lcsRec l m + 1 else max (lcsRec (x :: l) m) (lcsRec l (y :: m)) := by
  rw [lcsRec]

/-- The LCS recursion is symmetric. -/
theorem lcsRec_symm : ∀ l m : List String, lcsRec l m = lcsRec m l := by
  intro l
  induction l with
  | nil => intro m; rw [lcsRec_nil_left, lcsRec_nil_right]
  | cons x l ihl =>
    intro m
    induction m with
    | nil => rw [lcsRec_nil_left, lcsRec_nil_right]
    | cons y m ihm =>
      rw [lcsRec_cons_cons, lcsRec_cons_cons]
      rw [ihm, ihl (y :: m), ihl m]
      by_cases h : x = y
      · simp [h]
      · rw [if_neg h, if_neg (Ne.symm h)]
        omega

theorem lcsSpecRow_headD (u v : List String) (ys : List String) :
    (lcsSpecRow u v ys).headD 0 = lcsRec u v := by
  cases ys <;> simp [lcsSpecRow]

theorem lcsSpecRow_cons_head (u v : List String) (ys : List String) :
    lcsSpecRow u v ys = lcsRec u v :: (lcsSpecRow u v ys).tail := by
  cases ys <;> simp [lcsSpecRow]

/-- Row invariant of the inner LCS loop. -/
theorem lcsInner_spec (x : String) (u : List String) :
    ∀ ys v, lcsInner x ys (lcsRec (x :: u) v) (lcsSpecRow u v ys) =
      (lcsSpecRow (x :: u) v ys).tail := by
  intro ys
  induction ys with
  | nil => intro v; simp [lcsInner, lcsSpecRow]
  | cons y ys ih =>
    intro v
    rw [lcsSpecRow, lcsInner]
    simp only [lcsSpecRow_headD]
    rw [show (if x = y then lcsRec u v + 1
          else max (lcsRec u (y :: v)) (lcsRec (x :: u) v)) =
        lcsRec (x :: u) (y :: v) by
      rw [lcsRec_cons_cons]
      by_cases h : x = y
      · rw [if_pos h, if_pos h]
      · rw [if_neg h, if_neg h, Nat.max_comm]]
    rw [ih (y :: v)]
    rw [show (lcsSpecRow (x :: u) v (y :: ys)).tail = lcsSpecRow (x :: u) (y :: v) ys by
      rw [lcsSpecRow]; simp]
    exact (lcsSpecRow_cons_head (x :: u) (y :: v) ys).symm

/-- Row invariant of the outer LCS loop. -/
theorem lcsOuter_spec (b : List String) :
    ∀ xs u, lcsOuter b xs (lcsSpecRow u [] b) = lcsSpecRow (xs.reverse ++ u) [] b := by
  intro xs
  induction xs with
  | nil => intro u; simp [lcsOuter]
  | cons x xs ih =>
    intro u
    rw [lcsOuter]
    have h2 : lcsInner x b 0 (lcsSpecRow u [] b) = (lcsSpecRow (x :: u) [] b).tail := by
      rw [show (0 : ℕ) = lcsRec (x :: u) [] from (lcsRec_nil_right _).symm]
      exact lcsInner_spec x u b []
    rw [h2]
    have h3 : (0 : ℕ) :: (lcsSpecRow (x :: u) [] b).tail = lcsSpecRow (x :: u) [] b := by
      rw [show (0 : ℕ) = lcsRec (x :: u) [] from (lcsRec_nil_right _).symm]
      exact (lcsSpecRow_cons_head (x :: u) [] b).symm
    rw [h3, ih (x :: u)]
    simp [List.reverse_cons, List.append_assoc]

theorem lcsSpecRow_getLastD (u : List String) :
    ∀ ys v d, (lcsSpecRow u v ys).getLastD d = lcsRec u (ys.reverse ++ v) := by
  intro ys
  induction ys with
  | nil => intro v d; simp [lcsSpecRow]
  | cons y ys ih =>
    intro v d
    rw [lcsSpecRow, List.getLastD_cons, ih (y :: v)]
    simp [List.reverse_cons, List.append_assoc]

theorem lcsSpecRow_nil_left : ∀ ys v : List String,
    lcsSpecRow [] v ys = List.replicate (ys.length + 1) 0 := by
  intro ys
  induction ys with
  | nil => intro v; simp [lcsSpecRow, lcsRec_nil_left]
  | cons y ys ih =>
    intro v
    rw [lcsSpecRow, lcsRec_nil_left, ih (y :: v)]
    simp [List.replicate_succ]

/-- The LCS table computes the LCS recursion on the reversed inputs. -/
theorem lcs_length_eq_lcsRec (a b : List String) :
    lcs_length a b = lcsRec a.reverse b.reverse := by
  unfold lcs_length
  rw [show List.replicate (b.length + 1) 0 = lcsSpecRow [] [] b from
    (lcsSpecRow_nil_left b []).symm]
  rw [show lcsOuter b a (lcsSpecRow [] [] b) = lcsSpecRow (a.reverse ++ []) [] b from
    lcsOuter_spec b a []]
  rw [lcsSpecRow_getLastD]
  simp

theorem lcs_length_symm (a b : List String) : lcs_length a b = lcs_length b a := by
  rw [lcs_length_eq_lcsRec, lcs_length_eq_lcsRec, lcsRec_symm]

/-- Claim C9: `phonetic_distance` and `lcs_ratio` are symmetric in their two
arguments. -/
theorem phonetic_symmetry (x y : List String) :
    phonetic_distance x y = phonetic_distance y x ∧ lcs_ratio x y = lcs_ratio y x := by
  have h1 : levenshtein x y = levenshtein y x := levenshtein_symm x y
  have h2 : lcs_length x y = lcs_length y x := lcs_length_symm x y
  have h3 : max x.length y.length = max y.length x.length := Nat.max_comm _ _
  constructor
  · unfold phonetic_distance
    rw [h1, h3]
  · unfold lcs_ratio
    rw [h2, h3]

/-! ### PageRank mass conservation -/

theorem bump_length (l : List ℚ) (t : ℕ) (c : ℚ) : (bump l t c).length = l.length := by
  simp [bump]

theorem sum_bump (c : ℚ) : ∀ (l : List ℚ) (t : ℕ), t < l.length →
    (bump l t c).sum = l.sum + c := by
  intro l
  induction l with
  | nil => intro t ht; simp at ht
  | cons x xs ih =>
    intro t ht
    match t with
    | 0 => simp [bump]; ring
    | t + 1 =>
      have h := ih t (by simpa using ht)
      simp only [bump] at h ⊢
      simp only [List.set_cons_succ, List.getD_cons_succ, List.sum_cons]
      rw [h]
      ring

theorem distribute_length (c : ℚ) : ∀ (ts : List ℕ) (l : List ℚ),
    (distribute c ts l).length = l.length := by
  intro ts
  induction ts with
  | nil => intro l; simp [distribute]
  | cons t ts ih =>
    intro l
    show (distribute c ts (bump l t c)).length = l.length
    rw [ih, bump_length]

theorem distribute_sum (c : ℚ) : ∀ (ts : List ℕ) (l : List ℚ),
    (∀ t ∈ ts, t < l.length) → (distribute c ts l).sum = l.sum + c * ts.length := by
  intro ts
  induction ts with
  | nil => intro l _; simp [distribute]
  | cons t ts ih =>
    intro l hts
    show (distribute c ts (bump l t c)).sum = _
    rw [ih (bump l t c) (by intro s hs; rw [bump_length]; exact hts s (by simp [hs])),
      sum_bump c l t (hts t (by simp))]
    simp
    ring

theorem neighborsOf_lt (g : CGraph) (hwf : g.WF) (u : ℕ) :
    ∀ v ∈ neighborsOf g u, v < g.nodes.length := by
  intro v hv
  unfold neighborsOf at hv
  rcases List.mem_append.mp hv with h | h
  · obtain ⟨e, he, rfl⟩ := List.mem_map.mp h
    exact (hwf e (List.mem_filter.mp he).1).2
  · obtain ⟨e, he, rfl⟩ := List.mem_map.mp h
    exact (hwf e (List.mem_filter.mp he).1).1

theorem sum_getD_range : ∀ l : List ℚ, ((List.range l.length).map fun u => l.getD u 0).sum = l.sum := by
  intro l
  induction l with
  | nil => simp
  | cons x xs ih =>
    rw [List.length_cons, List.range_succ_eq_map]
    simp only [List.map_cons, List.map_map]
    rw [List.sum_cons]
    have : (List.map ((fun u => (x :: xs).getD u 0) ∘ Nat.succ) (List.range xs.length)).sum =
        (List.map (fun u => xs.getD u 0) (List.range xs.length)).sum := by
      congr 1
    rw [this, ih]
    simp

theorem pagerankPass_length (g : CGraph) (d : ℚ) (ranks : List ℚ) :
    (pagerankPass g d ranks).length = g.nodes.length := by
  unfold pagerankPass
  have key : ∀ (us : List ℕ) (acc : List ℚ),
      (us.foldl (fun acc u =>
        let nbrs := neighborsOf g u
        if 0 < nbrs.length then distribute (d * (ranks.getD u 0 / (nbrs.length : ℚ))) nbrs acc
        else acc) acc).length = acc.length := by
    intro us
    induction us with
    | nil => intro acc; rfl
    | cons u us ih =>
      intro acc
      simp only [List.foldl_cons]
      rw [ih]
      split
      · rw [distribute_length]
      · rfl
  rw [key]
  simp

/-- One PageRank pass maps a full-length rank vector of sum `s` to a vector
of sum `(1 - d) + d * s`, provided every node has positive degree. -/
theorem pagerankPass_sum (g : CGraph) (d : ℚ) (hwf : g.WF)
    (hdeg : ∀ u, u < g.nodes.length → neighborsOf g u ≠ [])
    (hn : g.nodes.length ≠ 0) (ranks : List ℚ) (hlen : ranks.length = g.nodes.length) :
    (pagerankPass g d ranks).sum = (1 - d) + d * ranks.sum := by
  unfold pagerankPass
  have key : ∀ (us : List ℕ) (acc : List ℚ), acc.length = g.nodes.length →
      (∀ u ∈ us, u < g.nodes.length) →
      (us.foldl (fun acc u =>
        let nbrs := neighborsOf g u
        if 0 < nbrs.length then distribute (d * (ranks.getD u 0 / (nbrs.length : ℚ))) nbrs acc
        else acc) acc).sum = acc.sum + d * ((us.map fun u => ranks.getD u 0).sum) := by
    intro us
    induction us with
    | nil => intro acc _ _; simp
    | cons u us ih =>
      intro acc hacc hus
      simp only [List.foldl_cons]
      have hu : u < g.nodes.length := hus u (by simp)
      have hne := hdeg u hu
      have hpos : 0 < (neighborsOf g u).length := List.length_pos.mpr hne
      rw [if_pos hpos]
      have hk0 : ((neighborsOf g u).length : ℚ) ≠ 0 := by
        exact_mod_cast Nat.pos_iff_ne_zero.mp hpos
      have hstep : (distribute (d * (ranks.getD u 0 / ((neighborsOf g u).length : ℚ)))
          (neighborsOf g u) acc).sum = acc.sum + d * ranks.getD u 0 := by
        rw [distribute_sum _ (neighborsOf g u) acc
          (fun t ht => hacc ▸ neighborsOf_lt g hwf u t ht)]
        congr 1
        field_simp
      rw [ih _ (by rw [distribute_length, hacc]) (fun s hs => hus s (by simp [hs])), hstep]
      simp
      ring
  rw [key (List.range g.nodes.length) _ (by simp) (by intro u hu; simpa using hu)]
  rw [show List.range g.nodes.length = List.range ranks.length by rw [hlen]]
  rw [sum_getD_range]
  rw [List.sum_replicate]
  rw [nsmul_eq_mul]
  rw [mul_div_cancel₀ _ (by exact_mod_cast hn)]

/-- Every node of a connected well-formed graph with at least one edge has at
least one neighbor. -/
theorem conn_deg_pos (g : CGraph) (hwf : g.WF) (hconn : Connected g)
    (hne : g.edges ≠ []) : ∀ u, u < g.nodes.length → neighborsOf g u ≠ [] := by
  intro u hu
  obtain ⟨e, he⟩ := List.exists_mem_of_ne_nil g.edges hne
  have hn : 0 < g.nodes.length := Nat.lt_of_le_of_lt (Nat.zero_le _) (hwf e he).1
  by_cases h1 : g.nodes.length = 1
  · have hu0 : u = 0 := by omega
    have he1 : e.1 = 0 := by have := (hwf e he).1; omega
    have hmem : e.2.1 ∈ neighborsOf g 0 := by
      unfold neighborsOf
      refine List.mem_append.mpr (Or.inl ?_)
      refine List.mem_map.mpr ⟨e, ?_, rfl⟩
      refine List.mem_filter.mpr ⟨he, ?_⟩
      simp [he1]
    rw [hu0]
    exact List.ne_nil_of_mem hmem
  · have h2 : 2 ≤ g.nodes.length := by omega
    set v := if u = 0 then 1 else 0 with hv
    have hvlt : v < g.nodes.length := by
      rw [hv]; split <;> omega
    have hvne : v ≠ u := by
      rw [hv]; split <;> omega
    rcases (hconn u v hu hvlt).cases_head with h | ⟨w, hw, _⟩
    · exact absurd h.symm hvne
    · exact List.ne_nil_of_mem hw

/-- Claim C8: for every well-formed connected graph with at least one edge,
any damping factor in `(0, 1)` and any iteration count, the PageRank values
returned by `compute_pagerank` sum to exactly `1`, hence to `1` within
`1e-6`. -/
theorem pagerank_sum (g : CGraph) (d : ℚ) (iters : ℕ) (hwf : g.WF)
    (hconn : Connected g) (hne : g.edges ≠ []) (hd0 : 0 < d) (hd1 : d < 1) :
    ((compute_pagerank g d iters).map fun p => p.2).sum = 1 ∧
      |((compute_pagerank g d iters).map fun p => p.2).sum - 1| ≤ 1 / 1000000 := by
  obtain ⟨e, he⟩ := List.exists_mem_of_ne_nil g.edges hne
  have hn : g.nodes.length ≠ 0 := by
    have := (hwf e he).1; omega
  have hdeg := conn_deg_pos g hwf hconn hne
  have hmain : ∀ k : ℕ, ((pagerankPass g d)^[k]
        (List.replicate g.nodes.length (1 / (g.nodes.length : ℚ)))).sum = 1 ∧
      ((pagerankPass g d)^[k]
        (List.replicate g.nodes.length (1 / (g.nodes.length : ℚ)))).length = g.nodes.length := by
    intro k
    induction k with
    | zero =>
      constructor
      · rw [Function.iterate_zero_apply, List.sum_replicate, nsmul_eq_mul]
        rw [mul_one_div, div_self (by exact_mod_cast hn)]
      · simp
    | succ k ih =>
      rw [Function.iterate_succ_apply']
      constructor
      · rw [pagerankPass_sum g d hwf hdeg hn _ ih.2, ih.1]
        ring
      · rw [pagerankPass_length]
  have hsum : ((compute_pagerank g d iters).map fun p => p.2).sum = 1 := by
    unfold compute_pagerank
    have hz : List.map (fun p => p.2) (g.nodes.zip ((pagerankPass g d)^[iters]
        (List.replicate g.nodes.length (1 / (g.nodes.length : ℚ))))) =
        (pagerankPass g d)^[iters]
          (List.replicate g.nodes.length (1 / (g.nodes.length : ℚ))) := by
      have := List.map_snd_zip g.nodes ((pagerankPass g d)^[iters]
        (List.replicate g.nodes.length (1 / (g.nodes.length : ℚ)))) (by rw [(hmain iters).2])
      simpa [Function.comp] using this
    rw [hz]
    exact (hmain iters).1
  refine ⟨hsum, ?_⟩
  rw [hsum]
  norm_num

/-- Claim C8, witness: the triangle graph `{(a,b,0.9), (b,c,0.85), (c,a,0.8)}`
at threshold `0.7`, damping `0.85`, `20` iterations, has PageRank values
summing to exactly `1`. -/
theorem pagerank_sum_witness :
    ((compute_pagerank (CGraph.fromEdges
        [("a", "b", (9 : ℚ)/10), ("b", "c", 85/100), ("c", "a", 8/10)] (7/10))
        (85/100) 20).map fun p => p.2).sum = 1 := by
  have hg : CGraph.fromEdges
      [("a", "b", (9 : ℚ)/10), ("b", "c", 85/100), ("c", "a", 8/10)] (7/10) =
      ⟨["a", "b", "c"], [(0, 1, (9 : ℚ)/10), (1, 2, 85/100), (2, 0, 8/10)]⟩ := by
    norm_num +decide [CGraph.fromEdges, addEdge, getOrCreate, idIndex?]
  refine (pagerank_sum _ (85/100) 20 ?_ ?_ ?_ (by norm_num) (by norm_num)).1
  · rw [hg]
    intro e he
    fin_cases he <;> exact ⟨by decide, by decide⟩
  · rw [hg]
    intro u v hu hv
    simp only [List.length_cons, List.length_nil] at hu hv
    have hu3 : u = 0 ∨ u = 1 ∨ u = 2 := by omega
    have hv3 : v = 0 ∨ v = 1 ∨ v = 2 := by omega
    rcases hu3 with rfl | rfl | rfl <;> rcases hv3 with rfl | rfl | rfl <;>
      first
        | exact Relation.ReflTransGen.refl
        | exact Relation.ReflTransGen.single (by decide)
  · rw [hg]
    simp

/-! ### Sorted id vector and diagonal entries of the sparse matrix -/

theorem strLtL_irrefl : ∀ l, strLtL l l = false := by
  intro l
  induction l with
  | nil => rfl
  | cons c cs ih => simp [strLtL, ih]

theorem strLtL_trans : ∀ l₁ l₂ l₃, strLtL l₁ l₂ = true → strLtL l₂ l₃ = true →
    strLtL l₁ l₃ = true := by
  intro l₁
  induction l₁ with
  | nil =>
    intro l₂ l₃ h12 h23
    cases l₂ with
    | nil => simp [strLtL] at h12
    | cons d ds =>
      cases l₃ with
      | nil => simp [strLtL] at h23
      | cons e es => simp [strLtL]
  | cons c cs ih =>
    intro l₂ l₃ h12 h23
    cases l₂ with
    | nil => simp [strLtL] at h12
    | cons d ds =>
      cases l₃ with
      | nil => simp [strLtL] at h23
      | cons e es =>
        simp only [strLtL] at h12 h23 ⊢
        by_cases hcd : c.toNat < d.toNat
        · by_cases hde : d.toNat < e.toNat
          · rw [if_pos (by omega : c.toNat < e.toNat)]
          · by_cases hed : e.toNat < d.toNat
            · rw [if_neg hde, if_pos hed] at h23
              exact absurd h23 (by simp)
            · rw [if_pos (by omega : c.toNat < e.toNat)]
        · by_cases hdc : d.toNat < c.toNat
          · rw [if_neg hcd, if_pos hdc] at h12
            exact absurd h12 (by simp)
          · rw [if_neg hcd, if_neg hdc] at h12
            by_cases hde : d.toNat < e.toNat
            · rw [if_pos (by omega : c.toNat < e.toNat)]
            · by_cases hed : e.toNat < d.toNat
              · rw [if_neg hde, if_pos hed] at h23
                exact absurd h23 (by simp)
              · rw [if_neg hde, if_neg hed] at h23
                rw [if_neg (by omega : ¬c.toNat < e.toNat),
                  if_neg (by omega : ¬e.toNat < c.toNat)]
                exact ih ds es h12 h23

theorem strLtL_total : ∀ l m : List Char, l = m ∨ strLtL l m = true ∨ strLtL m l = true := by
  intro l
  induction l with
  | nil =>
    intro m
    cases m with
    | nil => exact Or.inl rfl
    | cons d ds => exact Or.inr (Or.inl (by simp [strLtL]))
  | cons c cs ih =>
    intro m
    cases m with
    | nil => exact Or.inr (Or.inr (by simp [strLtL]))
    | cons d ds =>
      by_cases hcd : c.toNat < d.toNat
      · exact Or.inr (Or.inl (by simp [strLtL, hcd]))
      · by_cases hdc : d.toNat < c.toNat
        · exact Or.inr (Or.inr (by simp [strLtL, hdc]))
        · have hchar : c = d := by
            apply Char.ext
            apply UInt32.ext
            simp only [Char.toNat] at hcd hdc
            omega
          subst hchar
          rcases ih ds with h | h | h
          · exact Or.inl (by rw [h])
          · refine Or.inr (Or.inl ?_)
            simp only [strLtL, if_neg hcd, if_neg hdc]
            exact h
          · refine Or.inr (Or.inr ?_)
            simp only [strLtL, if_neg hcd, if_neg hdc]
            exact h

/-- The strict string order used to sort the id vector. -/
def strLtRel (s t : String) : Prop := strLtL s.data t.data = true

theorem insDistinct_mem : ∀ (l : List String) (x y : String),
    y ∈ insDistinct x l ↔ y = x ∨ y ∈ l := by
  intro l
  induction l with
  | nil => intro x y; simp [insDistinct]
  | cons z zs ih =>
    intro x y
    simp only [insDistinct]
    by_cases hxz : x = z
    · rw [if_pos hxz]
      subst hxz
      simp only [List.mem_cons]
      tauto
    · rw [if_neg hxz]
      by_cases hlt : strLtL x.data z.data = true
      · rw [if_pos hlt]
        simp only [List.mem_cons]
      · rw [if_neg hlt]
        simp only [List.mem_cons, ih x y]
        tauto

theorem insDistinct_pairwise : ∀ (l : List String) (x : String),
    l.Pairwise strLtRel → (insDistinct x l).Pairwise strLtRel := by
  intro l
  induction l with
  | nil => intro x _; simp [insDistinct, List.pairwise_singleton]
  | cons z zs ih =>
    intro x h
    rcases List.pairwise_cons.mp h with ⟨hz, hzs⟩
    by_cases hxz : x = z
    · simpa [insDistinct, if_pos hxz] using h
    · simp only [insDistinct, if_neg hxz]
      by_cases hlt : strLtL x.data z.data = true
      · rw [if_pos hlt]
        refine List.pairwise_cons.mpr ⟨?_, h⟩
        intro w hw
        rcases List.mem_cons.mp hw with rfl | hw
        · exact hlt
        · exact strLtL_trans _ _ _ hlt (hz w hw)
      · rw [if_neg hlt]
        refine List.pairwise_cons.mpr ⟨?_, ih x hzs⟩
        intro w hw
        rcases (insDistinct_mem zs x w).mp hw with rfl | hw
        · rcases strLtL_total w.data z.data with heq | hl | hr
          · exact absurd (String.ext heq) hxz
          · exact absurd hl hlt
          · exact hr
        · exact hz w hw

theorem foldr_insDistinct_pairwise (names : List String) :
    (names.foldr insDistinct []).Pairwise strLtRel := by
  induction names with
  | nil => simp
  | cons n ns ih => exact insDistinct_pairwise _ n ih

theorem foldr_insDistinct_mem (names : List String) (y : String) :
    y ∈ names.foldr insDistinct [] ↔ y ∈ names := by
  induction names with
  | nil => simp
  | cons n ns ih =>
    simp only [List.foldr_cons, insDistinct_mem, ih, List.mem_cons]

theorem sortedIds_nodup (edges : List (String × String × ℚ)) :
    (sortedIds edges).Nodup := by
  refine List.Pairwise.imp ?_ (foldr_insDistinct_pairwise (edgeIds edges))
  intro s t hst
  intro hc
  subst hc
  rw [strLtRel, strLtL_irrefl] at hst
  exact absurd hst (by simp)

theorem mem_sortedIds (edges : List (String × String × ℚ)) (e : String × String × ℚ)
    (he : e ∈ edges) : e.1 ∈ sortedIds edges ∧ e.2.1 ∈ sortedIds edges := by
  unfold sortedIds
  rw [foldr_insDistinct_mem, foldr_insDistinct_mem]
  unfold edgeIds
  induction edges with
  | nil => simp at he
  | cons f fs ih =>
    rcases List.mem_cons.mp he with rfl | he
    · simp
    · have := ih he
      simp only [List.foldr_cons, List.mem_cons]
      tauto

theorem idIndex?_some : ∀ (ids : List String) (x : String) (i : ℕ),
    idIndex? ids x = some i → i < ids.length ∧ ids.getD i emptyS = x := by
  intro ids
  induction ids with
  | nil => intro x i h; simp [idIndex?] at h
  | cons z zs ih =>
    intro x i h
    simp only [idIndex?] at h
    split at h
    · rename_i hx
      obtain rfl : i = 0 := by simpa using h.symm
      subst hx
      simp
    · cases hrec : idIndex? zs x with
      | none => rw [hrec] at h; simp at h
      | some i' =>
        rw [hrec] at h
        obtain rfl : i' + 1 = i := by simpa using h
        obtain ⟨h1, h2⟩ := ih x i' hrec
        constructor
        · simpa using h1
        · simpa using h2

theorem idIndex?_isSome : ∀ (ids : List String) (x : String), x ∈ ids →
    ∃ i, idIndex? ids x = some i := by
  intro ids
  induction ids with
  | nil => intro x h; simp at h
  | cons z zs ih =>
    intro x h
    by_cases hxz : x = z
    · exact ⟨0, by simp [idIndex?, hxz]⟩
    · rcases List.mem_cons.mp h with rfl | h
      · exact absurd rfl hxz
      · obtain ⟨i, hi⟩ := ih x h
        exact ⟨i + 1, by simp [idIndex?, hxz, hi]⟩

theorem idIndex?_getD_self : ∀ (ids : List String), ids.Nodup →
    ∀ i, i < ids.length → idIndex? ids (ids.getD i emptyS) = some i := by
  intro ids
  induction ids with
  | nil => intro _ i hi; simp at hi
  | cons z zs ih =>
    intro hnd i hi
    rcases List.nodup_cons.mp hnd with ⟨hz, hzs⟩
    match i with
    | 0 => simp [idIndex?]
    | i + 1 =>
      have hilt : i < zs.length := by simpa using hi
      have hne : zs.getD i emptyS ≠ z := by
        intro hc
        apply hz
        rw [← hc]
        rw [List.getD_eq_getElem zs emptyS hilt]
        exact List.getElem_mem _
      simp only [List.getD_cons_succ, idIndex?, if_neg hne, ih hzs i hilt]
      rfl

/-- Indices of distinct member ids are distinct; used to recognise
self-edges. -/
theorem idIndexD_eq_iff (ids : List String) (x y : String)
    (hx : x ∈ ids) (hy : y ∈ ids) :
    (idIndex? ids y).getD 0 = (idIndex? ids x).getD 0 ↔ y = x := by
  obtain ⟨ix, hix⟩ := idIndex?_isSome ids x hx
  obtain ⟨iy, hiy⟩ := idIndex?_isSome ids y hy
  rw [hix, hiy]
  simp only [Option.getD_some]
  constructor
  · intro h
    have h1 := idIndex?_some ids x ix hix
    have h2 := idIndex?_some ids y iy hiy
    rw [← h2.2, ← h1.2, h]
  · intro h
    subst h
    rw [hix] at hiy
    exact (Option.some_inj.mp hiy).symm

theorem sum_map_ite_eq_filter {E : Type _} (p : E → Bool) (f : E → ℚ) :
    ∀ l : List E, (l.map fun e => if p e = true then f e else 0).sum =
      ((l.filter p).map f).sum := by
  intro l
  induction l with
  | nil => simp
  | cons e es ih =>
    by_cases hp : p e = true
    · simp [hp, ih]
    · simp [hp, ih, List.filter_cons, Bool.eq_false_iff.mpr hp]

theorem csrValue_append (t₁ t₂ : List (ℕ × ℕ × ℚ)) (r c : ℕ) :
    csrValue (t₁ ++ t₂) r c = csrValue t₁ r c + csrValue t₂ r c := by
  unfold csrValue
  rw [List.filter_append, List.map_append, List.sum_append]

/-- Value contributed to a diagonal cell by the edge-insertion loop of
`from_edges`: exactly the weights of the threshold-passing self-edges mapped
to that index. -/
theorem csrValue_edge_fold (ids : List String) (τ : ℚ) (i : ℕ) :
    ∀ (es : List (String × String × ℚ)) (acc : List (ℕ × ℕ × ℚ)),
      csrValue (es.foldl
        (fun acc e =>
          if τ ≤ e.2.2 then
            acc ++ (((idIndex? ids e.1).getD 0, (idIndex? ids e.2.1).getD 0, e.2.2) ::
              if (idIndex? ids e.1).getD 0 ≠ (idIndex? ids e.2.1).getD 0 then
                [((idIndex? ids e.2.1).getD 0, (idIndex? ids e.1).getD 0, e.2.2)]
              else [])
          else acc) acc) i i =
      csrValue acc i i + (es.map fun e =>
        if τ ≤ e.2.2 ∧ (idIndex? ids e.1).getD 0 = i ∧ (idIndex? ids e.2.1).getD 0 = i then
          e.2.2
        else 0).sum := by
  intro es
  induction es with
  | nil => intro acc; simp
  | cons e es ih =>
    intro acc
    rw [List.foldl_cons, ih, List.map_cons, List.sum_cons]
    have hstep : csrValue
        (if τ ≤ e.2.2 then
          acc ++ (((idIndex? ids e.1).getD 0, (idIndex? ids e.2.1).getD 0, e.2.2) ::
            if (idIndex? ids e.1).getD 0 ≠ (idIndex? ids e.2.1).getD 0 then
              [((idIndex? ids e.2.1).getD 0, (idIndex? ids e.1).getD 0, e.2.2)]
            else [])
          else acc) i i =
        csrValue acc i i +
          (if τ ≤ e.2.2 ∧ (idIndex? ids e.1).getD 0 = i ∧ (idIndex? ids e.2.1).getD 0 = i then
            e.2.2 else 0) := by
      by_cases hτ : τ ≤ e.2.2
      · rw [if_pos hτ, csrValue_append]
        congr 1
        by_cases hii : (idIndex? ids e.1).getD 0 = i ∧ (idIndex? ids e.2.1).getD 0 = i
        · have hdiag : ¬((idIndex? ids e.1).getD 0 ≠ (idIndex? ids e.2.1).getD 0) := by
            rw [hii.1, hii.2]
            simp
          rw [if_neg hdiag, if_pos ⟨hτ, hii⟩]
          unfold csrValue
          simp [List.filter_cons, hii.1, hii.2]
        · rw [if_neg (show ¬(τ ≤ e.2.2 ∧ (idIndex? ids e.1).getD 0 = i ∧
              (idIndex? ids e.2.1).getD 0 = i) from fun hc => hii hc.2)]
          unfold csrValue
          have hf : List.filter (fun t => t.1 == i && t.2.1 == i)
              (((idIndex? ids e.1).getD 0, (idIndex? ids e.2.1).getD 0, e.2.2) ::
                (if (idIndex? ids e.1).getD 0 ≠ (idIndex? ids e.2.1).getD 0 then
                  [((idIndex? ids e.2.1).getD 0, (idIndex? ids e.1).getD 0, e.2.2)]
                else [])) = [] := by
            rw [List.filter_eq_nil_iff]
            intro t ht
            rcases List.mem_cons.mp ht with rfl | ht
            · simp only [Bool.and_eq_true, beq_iff_eq]
              rintro ⟨hc1, hc2⟩
              exact hii ⟨hc1, hc2⟩
            · split at ht
              · rcases List.mem_cons.mp ht with rfl | ht
                · simp only [Bool.and_eq_true, beq_iff_eq]
                  rintro ⟨hc1, hc2⟩
                  exact hii ⟨hc2, hc1⟩
                · simp at ht
              · simp at ht
          rw [hf]
          simp
      · rw [if_neg hτ, if_neg (show ¬(τ ≤ e.2.2 ∧ (idIndex? ids e.1).getD 0 = i ∧
            (idIndex? ids e.2.1).getD 0 = i) from fun hc => hτ hc.1)]
        simp
    rw [hstep]
    ring

/-- Claim C6 (amended): every diagonal entry of the matrix built by
`from_edges` is present, and its stored value is `1.0` plus the total weight
of the threshold-passing self-edges on its id (so exactly `1.0` when there is
no such self-edge). -/
theorem diagonal_amended (edges : List (String × String × ℚ)) (τ : ℚ) :
    (∀ i, i < (sortedIds edges).length → csrStored (tripletsOf edges τ) i i = true) ∧
      (∀ i, i < (sortedIds edges).length →
        csrValue (tripletsOf edges τ) i i =
          1 + selfWeight edges τ ((sortedIds edges).getD i emptyS)) := by
  constructor
  · intro i hi
    unfold csrStored tripletsOf
    rw [List.any_eq_true]
    refine ⟨(i, i, 1), List.mem_append.mpr (Or.inr ?_), by simp⟩
    exact List.mem_map.mpr ⟨i, List.mem_range.mpr hi, rfl⟩
  · intro i hi
    set ids := sortedIds edges with hids
    set x := ids.getD i emptyS with hx
    have hxmem : x ∈ ids := by
      rw [hx, List.getD_eq_getElem ids emptyS hi]
      exact List.getElem_mem _
    have hxi : idIndex? ids x = some i := idIndex?_getD_self ids (sortedIds_nodup edges) i hi
    unfold tripletsOf
    rw [csrValue_append, csrValue_edge_fold ids τ i edges []]
    have hzero : csrValue [] i i = 0 := by unfold csrValue; simp
    rw [hzero, zero_add]
    have hdiagval : ∀ n, i < n →
        csrValue ((List.range n).map fun k => (k, k, (1 : ℚ))) i i = 1 := by
      intro n
      induction n with
      | zero => intro h; omega
      | succ n ihn =>
        intro h
        rw [List.range_succ, List.map_append, csrValue_append]
        by_cases hin : i < n
        · rw [ihn hin]
          have hlast : csrValue (List.map (fun k => ((k : ℕ), k, (1 : ℚ))) [n]) i i = 0 := by
            unfold csrValue
            have hnil : List.filter (fun t => t.1 == i && t.2.1 == i)
                (List.map (fun k => ((k : ℕ), k, (1 : ℚ))) [n]) = [] := by
              rw [List.filter_eq_nil_iff]
              intro t ht
              obtain ⟨k, hk, rfl⟩ := List.mem_map.mp ht
              simp only [List.mem_singleton] at hk
              subst hk
              simp
              omega
            rw [hnil]
            simp
          rw [hlast]
          ring
        · have hieq : i = n := by omega
          subst hieq
          have h0 : csrValue ((List.range i).map fun k => (k, k, (1 : ℚ))) i i = 0 := by
            unfold csrValue
            have hnil : List.filter (fun t => t.1 == i && t.2.1 == i)
                ((List.range i).map fun k => (k, k, (1 : ℚ))) = [] := by
              rw [List.filter_eq_nil_iff]
              intro t ht
              obtain ⟨k, hk, rfl⟩ := List.mem_map.mp ht
              have := List.mem_range.mp hk
              simp
              omega
            rw [hnil]
            simp
          have h1 : csrValue (List.map (fun k => ((k : ℕ), k, (1 : ℚ))) [i]) i i = 1 := by
            unfold csrValue
            simp [List.filter_cons]
          rw [h0, h1]
          ring
    rw [hdiagval ids.length hi]
    have hsum : (edges.map fun e =>
        if τ ≤ e.2.2 ∧ (idIndex? ids e.1).getD 0 = i ∧ (idIndex? ids e.2.1).getD 0 = i then
          e.2.2 else 0).sum = selfWeight edges τ x := by
      unfold selfWeight
      rw [← sum_map_ite_eq_filter]
      congr 1
      refine List.map_congr_left ?_
      intro e he
      have hmem := mem_sortedIds edges e he
      have h1 : (idIndex? ids e.1).getD 0 = i ↔ e.1 = x := by
        rw [show i = (idIndex? ids x).getD 0 by rw [hxi]; simp]
        exact idIndexD_eq_iff ids x e.1 hxmem hmem.1
      have h2 : (idIndex? ids e.2.1).getD 0 = i ↔ e.2.1 = x := by
        rw [show i = (idIndex? ids x).getD 0 by rw [hxi]; simp]
        exact idIndexD_eq_iff ids x e.2.1 hxmem hmem.2
      refine if_congr ?_ rfl rfl
      rw [h1, h2]
      constructor
      · rintro ⟨ht, hx1, hx2⟩
        simp [hx1, hx2, ht]
      · intro h
        simp only [Bool.and_eq_true, beq_iff_eq, decide_eq_true_eq] at h
        exact ⟨h.2, h.1.1, h.1.2⟩
    rw [hsum]
    ring

/-- Claim C6 amended, witness at the self-edge input
`[("a","a",0.9)]` with threshold `0.5` and diagonal index `0`. -/
theorem diagonal_amended_witness :
    csrStored (tripletsOf [("a", "a", (9 : ℚ)/10)] (1/2)) 0 0 = true ∧
      csrValue (tripletsOf [("a", "a", (9 : ℚ)/10)] (1/2)) 0 0 =
        1 + selfWeight [("a", "a", (9 : ℚ)/10)] (1/2)
          ((sortedIds [("a", "a", (9 : ℚ)/10)]).getD 0 emptyS) := by
  have hlen : 0 < (sortedIds [("a", "a", (9 : ℚ)/10)]).length := by
    have : "a" ∈ sortedIds [("a", "a", (9 : ℚ)/10)] :=
      (mem_sortedIds [("a", "a", (9 : ℚ)/10)] ("a", "a", (9 : ℚ)/10) (by simp)).1
    exact List.length_pos.mpr (List.ne_nil_of_mem this)
  exact ⟨(diagonal_amended [("a", "a", (9 : ℚ)/10)] (1/2)).1 0 hlen,
    (diagonal_amended [("a", "a", (9 : ℚ)/10)] (1/2)).2 0 hlen⟩

/-! ### knn ordering -/

instance : IsTotal (ℚ × ℕ) descLex := by
  constructor
  intro a b
  unfold descLex
  rcases lt_trichotomy a.1 b.1 with h | h | h
  · exact Or.inr (Or.inl h)
  · rcases Nat.le_total a.2 b.2 with h2 | h2
    · exact Or.inr (Or.inr ⟨h, h2⟩)
    · exact Or.inl (Or.inr ⟨h.symm, h2⟩)
  · exact Or.inl (Or.inl h)

instance : IsTrans (ℚ × ℕ) descLex := by
  constructor
  intro a b c h1 h2
  unfold descLex at h1 h2 ⊢
  rcases h1 with h1 | ⟨he1, hl1⟩ <;> rcases h2 with h2 | ⟨he2, hl2⟩
  · exact Or.inl (lt_trans h2 h1)
  · exact Or.inl (he2 ▸ h1)
  · exact Or.inl (he1 ▸ h2)
  · exact Or.inr ⟨he2.trans he1, hl2.trans hl1⟩

/-- Claim C3 (amended): `knn(entry_id, k)` returns the top `k` stored
non-diagonal entries of the queried row ordered by the max-heap pop order:
descending weight, with ties between equal weights broken by descending
column index.  Precisely: the returned pairs are the id-labelled `knnPairs`,
the number of pairs is `min k` (number of stored non-diagonal row entries),
the pair list is sorted by `descLex`, every returned pair is a stored
non-diagonal row entry, and every non-returned row entry ranks no higher
than every returned one. -/
theorem knn_amended (edges : List (String × String × ℚ)) (τ : ℚ) (entry : String) (k : ℕ) :
    knn edges τ entry k = (knnPairs edges τ entry k).map
        (fun p => ((sortedIds edges).getD p.2 emptyS, p.1)) ∧
      (knnPairs edges τ entry k).length = min k (knnCandidates edges τ entry).length ∧
      List.Pairwise descLex (knnPairs edges τ entry k) ∧
      (∀ p ∈ knnPairs edges τ entry k, p ∈ knnCandidates edges τ entry) ∧
      (∀ q ∈ knnCandidates edges τ entry, q ∉ knnPairs edges τ entry k →
        ∀ p ∈ knnPairs edges τ entry k, descLex p q) := by
  have hperm := List.perm_insertionSort descLex (knnCandidates edges τ entry)
  have hsorted := List.sorted_insertionSort descLex (knnCandidates edges τ entry)
  refine ⟨rfl, ?_, ?_, ?_, ?_⟩
  · unfold knnPairs
    rw [List.length_take, hperm.length_eq]
  · exact List.Pairwise.sublist (List.take_sublist _ _) hsorted
  · intro p hp
    exact hperm.mem_iff.mp (List.mem_of_mem_take hp)
  · intro q hq hqn p hp
    have hqs : q ∈ List.insertionSort descLex (knnCandidates edges τ entry) :=
      hperm.mem_iff.mpr hq
    rw [← List.take_append_drop k (List.insertionSort descLex (knnCandidates edges τ entry))]
      at hqs
    rcases List.mem_append.mp hqs with h | h
    · exact absurd h hqn
    · have hps := List.pairwise_append.mp (by
        rw [List.take_append_drop k (List.insertionSort descLex (knnCandidates edges τ entry))]
        exact hsorted)
      exact hps.2.2 p hp q h

/-- Claim C3 amended, witness: on the tie input the returned pair
`(0.5, col 2)` is indeed a stored non-diagonal entry of the row of `"a"`. -/
theorem knn_amended_witness :
    ((1 : ℚ)/2, 2) ∈ knnCandidates [("a", "b", (1 : ℚ)/2), ("a", "c", 1/2)] 0 "a" :=
  (knn_amended [("a", "b", (1 : ℚ)/2), ("a", "c", 1/2)] 0 "a" 2).2.2.2.1 ((1 : ℚ)/2, 2)
    (by norm_num +decide [knnPairs, knnCandidates, rowEntries, rowCols, insDistinctN,
      csrValue, tripletsOf, sortedIds, edgeIds, insDistinct, idIndex?, descLex,
      List.insertionSort, List.orderedInsert, List.range_succ])

end LangViz
